import Mathlib

/-!
Verification of the tableau/pivot simplex engine of the `simplex` repository.

The engine is embedded shallowly: numbers are exact rationals (`ℚ`), matrices
are `List (List ℚ)`, and the symbolic variable labels of the source
(strings of the form x1, x2, ...) are represented by their 1-based index:
the label x&lt;i&gt; is the natural number `i`.  Out-of-range array reads, which in
the source produce implicit defaults, are rendered with `List.getD`.  The
`while (true)` auto-solve loops are rendered with an explicit fuel parameter;
their stabilisation is proved where a claim needs it.
-/

/- Batteries marks the rational operations `@[irreducible]` for elaboration
performance.  Restoring their (file-local) semireducibility lets `decide` and
`rfl` evaluate the embedded solver on concrete rationals; kernel checking is
unaffected, since the kernel never consults reducibility. -/
attribute [local semireducible] Rat.add Rat.mul Rat.sub Rat.inv Rat.ofScientific

namespace Simplex

/-- The `ObjectiveType` union from `types/index.ts`. -/
inductive ObjectiveType
  | max
  | min
deriving DecidableEq, Repr

/-- The `SolutionType` union from `types/index.ts`. -/
inductive SolutionType
  | optimal
  | unbounded
  | infeasible
  | notSolved
deriving DecidableEq, Repr

/-- `ProblemData` from `types/index.ts`. -/
structure ProblemData where
  numVariables : ℕ
  numConstraints : ℕ
  objectiveCoefficients : List ℚ
  constraintMatrix : List (List ℚ)
  rightHandSide : List ℚ
  objectiveType : ObjectiveType
deriving DecidableEq, Repr

/-- `Step` from `types/index.ts`; labels are 1-based variable indices. -/
structure Step where
  matrix : List (List ℚ)
  z : List ℚ
  potentialPivots : List (ℕ × ℕ)
  colsVariables : List ℕ
  rowVariables : List ℕ
  selectedPivotIndex : Option ℕ := none
  solutionType : SolutionType
deriving DecidableEq, Repr

/-- `SolverState` from `types/index.ts` (shared by `solver.ts` and `artificial.ts`). -/
structure SolverState where
  matrix : List (List ℚ)
  z : List ℚ
  colsVariables : List ℕ
  rowVariables : List ℕ
  artificialPhase : Bool
deriving DecidableEq, Repr

/-- `Solution` from `types/index.ts`: `x` maps the variable index i (for the
label x&lt;i+1&gt;) to its value, rendered positionally. -/
structure Solution where
  steps : List Step
  x : List ℚ
  objective : ℚ
deriving DecidableEq, Repr

/-- The shared epsilon `EPS = 1e-10` from `utils.ts` / `solverCommon.ts`. -/
def EPS : ℚ := 1 / 10000000000

/-- `neg` from `utils.ts`. -/
def neg (x : ℚ) : Bool := decide (x < -EPS)

/-- `pos` from `utils.ts`. -/
def pos (x : ℚ) : Bool := decide (x > EPS)

/-- Reading `m[i][j]`; out-of-range reads give the default 0. -/
def getEntry (m : List (List ℚ)) (i j : ℕ) : ℚ := (m.getD i []).getD j 0

/-- `performPivot` from `utils.ts`: normalize the pivot row by the pivot
element, then eliminate the pivot column from every other row by subtracting
that row's own coefficient times the normalized pivot row.  `artificial.ts`
contains the identical routine under the name `pivot`. -/
def performPivot (matrix : List (List ℚ)) (pivotRow pivotCol : ℕ) : List (List ℚ) :=
  let p := getEntry matrix pivotRow pivotCol
  let normRow := (matrix.getD pivotRow []).map (fun a => a / p)
  matrix.mapIdx (fun i row =>
    if i = pivotRow then row.map (fun a => a / p)
    else
      let factor := row.getD pivotCol 0
      row.mapIdx (fun j a => a - factor * normRow.getD j 0))

/-- `buildMatrix` from `utils.ts`: the augmented matrix [A | b]. -/
def buildMatrix (problem : ProblemData) : List (List ℚ) :=
  (List.range problem.numConstraints).map (fun i =>
    ((List.range problem.numVariables).map (fun j => getEntry problem.constraintMatrix i j))
      ++ [problem.rightHandSide.getD i 0])

/-- `normalizeRhs` from `solverCommon.ts` (identical to `normalizeRHS` in
`artificial.ts`): negate every row whose right-hand side is negative. -/
def normalizeRhs (matrix : List (List ℚ)) : List (List ℚ) :=
  let rhsIndex := (matrix.headD []).length - 1
  matrix.map (fun row =>
    if row.getD rhsIndex 0 ≥ 0 then row else row.map (fun v => -v))

/-- `resolveSolutionType` from `solverCommon.ts` / `artificial.ts`. -/
def resolveSolutionType (hasNegative : Bool) (potentialPivots : List (ℕ × ℕ)) :
    SolutionType :=
  if !hasNegative then .optimal
  else if potentialPivots.length = 0 then .unbounded
  else .notSolved

/-- `PivotSearchOptions` from `solverCommon.ts`. -/
structure PivotSearchOptions where
  canLeaveBasis : ℚ → Bool
  ratioEpsilon : Option ℚ := none

/-- The inner row loop of `findPotentialPivots`: scan `remaining` rows
starting at `row`, keeping the best (smallest-ratio, first encountered)
eligible row together with its ratio.  The JavaScript sentinel
`leavingRow = -1` / `minRatio = Infinity` is rendered as `none`. -/
def findLeavingRow (canLeave : ℚ → Bool) (ratioEps : ℚ) (matrix : List (List ℚ))
    (rhsIndex col : ℕ) : ℕ → ℕ → Option (ℕ × ℚ) → Option (ℕ × ℚ)
  | 0, _, best => best
  | remaining + 1, row, best =>
      let coeff := getEntry matrix row col
      let best2 :=
        if canLeave coeff then
          let ratio := getEntry matrix row rhsIndex / coeff
          match best with
          | none => some (row, ratio)
          | some (r, mr) =>
              if ratio < mr - ratioEps then some (row, ratio) else some (r, mr)
        else best
      findLeavingRow canLeave ratioEps matrix rhsIndex col remaining (row + 1) best2

/-- The outer column loop of `findPotentialPivots`: scan `remaining` columns
starting at `col`, emitting one (row, col) pair per eligible entering column
and raising the `hasNegative` flag whenever a reduced cost is below -EPS. -/
def findPivotsCols (canLeave : ℚ → Bool) (ratioEps : ℚ) (matrix : List (List ℚ))
    (z : List ℚ) (rhsIndex : ℕ) : ℕ → ℕ → List (ℕ × ℕ) × Bool
  | 0, _ => ([], false)
  | remaining + 1, col =>
      let rest := findPivotsCols canLeave ratioEps matrix z rhsIndex remaining (col + 1)
      if neg (z.getD col 0) then
        match findLeavingRow canLeave ratioEps matrix rhsIndex col matrix.length 0 none with
        | some rr => ((rr.1, col) :: rest.1, true)
        | none => (rest.1, true)
      else rest

/-- `findPotentialPivots` from `solverCommon.ts`: candidate entering columns
are those with reduced cost below -EPS; for each, the leaving row minimises
RHS(row)/coeff(row, col) over the rows accepted by `canLeaveBasis`, ties
broken by the first row encountered. -/
def findPotentialPivots (matrix : List (List ℚ)) (z : List ℚ)
    (options : PivotSearchOptions) : List (ℕ × ℕ) × Bool :=
  let rhsIndex := (matrix.headD []).length - 1
  findPivotsCols options.canLeaveBasis (options.ratioEpsilon.getD 0) matrix z rhsIndex
    (z.length - 1) 0

/-- The eligibility predicate passed by `appendNextSnapshot` in `solver.ts`
(`value => !neg(value) && value !== 0`); it is also the inlined test of
`findPotentialPivots` in `artificial.ts`
(`if (neg(matrix[row][col]) || matrix[row][col] === 0) continue`). -/
def artificialCanLeave (v : ℚ) : Bool := !neg v && decide (v ≠ 0)

/-- `findPotentialPivots` from `artificial.ts`: the shared search instantiated
with the artificial eligibility predicate and no ratio epsilon. -/
def findPotentialPivotsA (matrix : List (List ℚ)) (z : List ℚ) :
    List (ℕ × ℕ) × Bool :=
  findPotentialPivots matrix z { canLeaveBasis := artificialCanLeave }

/-- `isAllZero` from `solver.ts` / `artificial.ts`. -/
def isAllZero (z : List ℚ) : Bool := z.all (fun v => decide (|v| < EPS))

/-- `isSameVector` from `solver.ts` / `artificial.ts`. -/
def isSameVector (a b : List ℚ) : Bool :=
  decide (a.length = b.length) && (a.zip b).all (fun p => decide (|p.1 - p.2| ≤ EPS))

/-- `computeObjectiveFromX` from `solverCommon.ts` (identical in
`artificial.ts`). -/
def computeObjectiveFromX (x : List ℚ) (C : List ℚ) : ℚ :=
  ((List.range C.length).map (fun i => C.getD i 0 * x.getD i 0)).sum

/-- `createZeroSolution` from `solver.ts` / `artificial.ts`. -/
def createZeroSolution (totalVars : ℕ) : List ℚ := List.replicate totalVars 0

/-! ### The artificial-basis method (`artificial.ts`)

`artificial.ts` is the self-contained two-phase solver used by
`useSimplexSolver`; `solver.ts` contains the same algorithm split into
`doSimplex`/`solveStepMode` (embedded further below).  Cloning of step
snapshots (`cloneSteps`, `cloneM`) is the identity on the immutable values of
this embedding and is therefore not materialised. -/

/-- The snapshot pushed by `appendNextSnapshot` for a given state — identical
record construction in `solver.ts` (lines 107-114) and `artificial.ts`
(lines 127-134), with the shared pivot search. -/
def snapshotOf (state : SolverState) : Step :=
  let found := findPotentialPivotsA state.matrix state.z
  { matrix := state.matrix
    z := state.z
    potentialPivots := found.1
    colsVariables := state.colsVariables
    rowVariables := state.rowVariables
    selectedPivotIndex := none
    solutionType := resolveSolutionType found.2 found.1 }

namespace artificial

/-- `buildArtificialTargetFunction` from `artificial.ts`: the Phase-I z-row,
minus the column sums of the augmented matrix. -/
def buildArtificialTargetFunction (matrix : List (List ℚ)) : List ℚ :=
  (List.range (matrix.headD []).length).map (fun j =>
    -((List.range matrix.length).map (fun i => getEntry matrix i j)).sum)

/-- `createInitialState` from `artificial.ts` (also `createInitialArtificialState`
in the `artificial.ts` variant that feeds `solver.ts`): normalized augmented
matrix, artificial z-row, the original variables labelling the columns and the
artificial variables x&lt;numVariables+i&gt; labelling the rows. -/
def createInitialState (pb : ProblemData) : SolverState where
  matrix := normalizeRhs (buildMatrix pb)
  z := buildArtificialTargetFunction (normalizeRhs (buildMatrix pb))
  colsVariables := (List.range pb.numVariables).map (fun i => i + 1)
  rowVariables := (List.range pb.numConstraints).map (fun i => i + pb.numVariables + 1)
  artificialPhase := true

/-- `rebuildOriginalZ` from `artificial.ts`: the original-objective z-row
recomputed from scratch — the raw coefficient for each non-basic column, minus
the basic rows weighted by their variables' objective coefficients.  The
source fills an array index by index; the embedding gives the same entries
positionally. -/
def rebuildOriginalZ (pb : ProblemData) (matrix : List (List ℚ))
    (rowVariables colsVariables : List ℕ) : List ℚ :=
  let cols := (matrix.headD []).length
  (List.range cols).map (fun j =>
    (if j < colsVariables.length then
      pb.objectiveCoefficients.getD (colsVariables.getD j 0 - 1) 0
    else 0)
    - ((List.range rowVariables.length).map (fun i =>
        pb.objectiveCoefficients.getD (rowVariables.getD i 0 - 1) 0 * getEntry matrix i j)).sum)

/-- `restoreState` from `artificial.ts`: solver state reconstructed purely
from one step snapshot; the phase flag is recovered by comparing the stored
z-row with the rebuilt original z-row. -/
def restoreState (pb : ProblemData) (step : Step) : SolverState where
  matrix := step.matrix
  z := step.z
  colsVariables := step.colsVariables
  rowVariables := step.rowVariables
  artificialPhase := !isSameVector step.z
    (rebuildOriginalZ pb step.matrix step.rowVariables step.colsVariables)

/-- `applyPivotToState` from `artificial.ts`: relabel the pivot row with the
entering variable, pivot the tableau (matrix plus z-row), then delete the
entering column from the matrix, the z-row and the column labels. -/
def applyPivotToState (state : SolverState) (pivotPoint : ℕ × ℕ) : SolverState :=
  let pivotRow := pivotPoint.1
  let pivotCol := pivotPoint.2
  let tableau := state.matrix ++ [state.z]
  let afterPivot := performPivot tableau pivotRow pivotCol
  let finalized := afterPivot.map (fun row => row.eraseIdx pivotCol)
  { matrix := finalized.dropLast
    z := (finalized.getLast?).getD []
    colsVariables := state.colsVariables.eraseIdx pivotCol
    rowVariables := state.rowVariables.set pivotRow (state.colsVariables.getD pivotCol 0)
    artificialPhase := state.artificialPhase }

/-- `appendNextSnapshot` from `artificial.ts`.  The source loop runs at most
twice: a second snapshot is pushed only when the first is terminal during the
artificial phase with an all-zero z-row, and that second pass has
`artificialPhase = false`, so it always returns.  The embedding unrolls the
two passes. -/
def appendNextSnapshot (pb : ProblemData) (steps : List Step) (state : SolverState) :
    List Step :=
  let step1 := snapshotOf state
  let steps1 := steps ++ [step1]
  if step1.solutionType ≠ SolutionType.notSolved ∧ state.artificialPhase = true ∧
      isAllZero state.z = true then
    let state2 : SolverState :=
      { state with
        z := rebuildOriginalZ pb state.matrix state.rowVariables state.colsVariables
        artificialPhase := false }
    steps1 ++ [snapshotOf state2]
  else steps1

/-- `solveArtificialStep` from `artificial.ts`: the public advance operation of
the replay protocol for the artificial-basis method. -/
def solveArtificialStep (pb : ProblemData) (previousSteps : List Step)
    (selectedPivotIndex : Option ℕ) : List Step :=
  match previousSteps.getLast? with
  | none => appendNextSnapshot pb previousSteps (createInitialState pb)
  | some lastStep =>
    if lastStep.potentialPivots.length = 0 ∨
        lastStep.solutionType ≠ SolutionType.notSolved then previousSteps
    else
      let chosenPivotIndex := selectedPivotIndex.getD 0
      match lastStep.potentialPivots.get? chosenPivotIndex with
      | none => previousSteps
      | some pivotPoint =>
        let annotated := previousSteps.set (previousSteps.length - 1)
          { lastStep with selectedPivotIndex := some chosenPivotIndex }
        appendNextSnapshot pb annotated
          (applyPivotToState (restoreState pb lastStep) pivotPoint)

/-- The `while (true)` loop of `solveArtificial`, with explicit fuel. -/
def solveArtificialLoop (pb : ProblemData) : ℕ → List Step → List Step
  | 0, steps => steps
  | fuel + 1, steps =>
    let nextSteps := solveArtificialStep pb steps (some 0)
    if nextSteps.length = steps.length then nextSteps
    else
      match nextSteps.getLast? with
      | none => nextSteps
      | some lastStep =>
        if lastStep.solutionType ≠ SolutionType.notSolved then nextSteps
        else solveArtificialLoop pb fuel nextSteps

/-- `extractSolution` from `artificial.ts`: each basic row's label assigns the
row's RHS value to that variable; everything else stays 0. -/
def extractSolution (matrix : List (List ℚ)) (rowVariables : List ℕ)
    (totalVars : ℕ) : List ℚ :=
  let rhs := (matrix.headD []).length - 1
  (List.range rowVariables.length).foldl (fun sol i =>
    let idx := rowVariables.getD i 0
    if idx ≤ totalVars then sol.set (idx - 1) (getEntry matrix i rhs) else sol)
    (createZeroSolution totalVars)

/-- `extractSolutionFromSteps` from `artificial.ts`. -/
def extractSolutionFromSteps (pb : ProblemData) (steps : List Step) : List ℚ :=
  match steps.getLast? with
  | none => createZeroSolution pb.numVariables
  | some lastStep => extractSolution lastStep.matrix lastStep.rowVariables pb.numVariables

/-- `solveArtificial` from `artificial.ts`, with explicit fuel for its
auto-solve loop. -/
def solveArtificial (pb : ProblemData) (fuel : ℕ) : Solution :=
  let steps := solveArtificialLoop pb fuel []
  let x := extractSolutionFromSteps pb steps
  { steps, x, objective := computeObjectiveFromX x pb.objectiveCoefficients }

end artificial

/-! ### `solver.ts`: the `doSimplex` / `solveStepMode` pipeline

Shared by the artificial method (initial state from
`createInitialArtificialState`) and the `simplexMethod.ts` variant.  It
differs from `artificial.ts` only in `rebuildOriginalZ` (sign convention with
a final flip for minimisation) and in `applyPivotToState` taking the method
as a parameter. -/

/-- The method tag `"artificial" | "simplex"` of `solver.ts`. -/
inductive Method
  | artificial
  | simplex
deriving DecidableEq, Repr

namespace solver

/-- `rebuildOriginalZ` from `solver.ts`: minus the raw coefficient for each
non-basic column, plus the basic rows weighted by their variables' objective
coefficients, all negated once when the problem minimises. -/
def rebuildOriginalZ (pb : ProblemData) (matrix : List (List ℚ))
    (rowVariables colsVariables : List ℕ) : List ℚ :=
  let cols := (matrix.headD []).length
  let rhsIndex := cols - 1
  let base := (List.range cols).map (fun j =>
    (if j < colsVariables.length then
      let coeff := pb.objectiveCoefficients.getD (colsVariables.getD j 0 - 1) 0
      if j = rhsIndex then coeff else -coeff
    else 0)
    + ((List.range rowVariables.length).map (fun i =>
        pb.objectiveCoefficients.getD (rowVariables.getD i 0 - 1) 0 * getEntry matrix i j)).sum)
  match pb.objectiveType with
  | .min => base.map (fun v => -v)
  | .max => base

/-- `restoreState` from `solver.ts`. -/
def restoreState (pb : ProblemData) (step : Step) : SolverState where
  matrix := step.matrix
  z := step.z
  colsVariables := step.colsVariables
  rowVariables := step.rowVariables
  artificialPhase := !isSameVector step.z
    (rebuildOriginalZ pb step.matrix step.rowVariables step.colsVariables)

/-- `applyPivotToState` from `solver.ts`: pivot the tableau; the artificial
method then deletes the entering column, the simplex method keeps it. -/
def applyPivotToState (state : SolverState) (pivotPoint : ℕ × ℕ) (method : Method) :
    SolverState :=
  let pivotRow := pivotPoint.1
  let pivotCol := pivotPoint.2
  let rowVariables := state.rowVariables.set pivotRow (state.colsVariables.getD pivotCol 0)
  let afterPivot := performPivot (state.matrix ++ [state.z]) pivotRow pivotCol
  match method with
  | .artificial =>
    let finalized := afterPivot.map (fun row => row.eraseIdx pivotCol)
    { matrix := finalized.dropLast
      z := (finalized.getLast?).getD []
      colsVariables := state.colsVariables.eraseIdx pivotCol
      rowVariables
      artificialPhase := state.artificialPhase }
  | .simplex =>
    { matrix := afterPivot.dropLast
      z := (afterPivot.getLast?).getD []
      colsVariables := state.colsVariables
      rowVariables
      artificialPhase := state.artificialPhase }

/-- `appendNextSnapshot` from `solver.ts`; as in `artificial.ts` the loop is
unrolled to its at most two passes. -/
def appendNextSnapshot (pb : ProblemData) (steps : List Step) (state : SolverState) :
    List Step :=
  let step1 := snapshotOf state
  let steps1 := steps ++ [step1]
  if step1.solutionType ≠ SolutionType.notSolved ∧ state.artificialPhase = true ∧
      isAllZero state.z = true then
    let state2 : SolverState :=
      { state with
        z := rebuildOriginalZ pb state.matrix state.rowVariables state.colsVariables
        artificialPhase := false }
    steps1 ++ [snapshotOf state2]
  else steps1

/-- `solveStepMode` from `solver.ts`. -/
def solveStepMode (pb : ProblemData) (previousSteps : List Step)
    (initialState : SolverState) (method : Method) (selectedPivotIndex : Option ℕ) :
    List Step :=
  match previousSteps.getLast? with
  | none => appendNextSnapshot pb previousSteps initialState
  | some lastStep =>
    if lastStep.potentialPivots.length = 0 ∨
        lastStep.solutionType ≠ SolutionType.notSolved then previousSteps
    else
      let chosenPivotIndex := selectedPivotIndex.getD 0
      match lastStep.potentialPivots.get? chosenPivotIndex with
      | none => previousSteps
      | some pivotPoint =>
        let annotated := previousSteps.set (previousSteps.length - 1)
          { lastStep with selectedPivotIndex := some chosenPivotIndex }
        appendNextSnapshot pb annotated
          (applyPivotToState (restoreState pb lastStep) pivotPoint method)

/-- `extractSolution` from `solver.ts` (with its defensive label and bounds
checks). -/
def extractSolution (matrix : List (List ℚ)) (rowVariables : List ℕ)
    (totalVars : ℕ) : List ℚ :=
  let rhs := (matrix.headD []).length - 1
  (List.range rowVariables.length).foldl (fun sol i =>
    let idx := rowVariables.getD i 0
    if 0 < idx ∧ idx ≤ totalVars ∧ i < matrix.length ∧ rhs < (matrix.getD i []).length then
      sol.set (idx - 1) (getEntry matrix i rhs)
    else sol)
    (createZeroSolution totalVars)

/-- `extractSolutionFromSteps` from `solver.ts`. -/
def extractSolutionFromSteps (pb : ProblemData) (steps : List Step) : List ℚ :=
  match steps.getLast? with
  | none => createZeroSolution pb.numVariables
  | some lastStep => extractSolution lastStep.matrix lastStep.rowVariables pb.numVariables

/-- The `while (true)` loop of `doSimplex`, with explicit fuel. -/
def doSimplexLoop (pb : ProblemData) (initialState : SolverState) (method : Method) :
    ℕ → List Step → List Step
  | 0, steps => steps
  | fuel + 1, steps =>
    let nextSteps := solveStepMode pb steps initialState method (some 0)
    if nextSteps.length = steps.length then nextSteps
    else
      match nextSteps.getLast? with
      | none => nextSteps
      | some lastStep =>
        if lastStep.solutionType ≠ SolutionType.notSolved then nextSteps
        else doSimplexLoop pb initialState method fuel nextSteps

/-- `doSimplex` from `solver.ts`: auto-solve, then rewrite a last `optimal`
step to `unbounded` when the extracted assignment is empty, and read the
objective off the final z-row's last entry, negated. -/
def doSimplex (pb : ProblemData) (initialState : SolverState) (method : Method)
    (fuel : ℕ) : Solution :=
  let steps := doSimplexLoop pb initialState method fuel []
  let x := extractSolutionFromSteps pb steps
  let steps2 :=
    match steps.getLast? with
    | some lastStep =>
      if lastStep.solutionType = SolutionType.optimal ∧ x.length = 0 then
        steps.set (steps.length - 1) { lastStep with solutionType := .unbounded }
      else steps
    | none => steps
  let lastZ := ((steps2.getLast?).map Step.z).getD []
  { steps := steps2, x, objective := (lastZ.getD (lastZ.length - 1) 0) * (-1) }

end solver

/-- `createInitialArtificialState` from the `artificial.ts` variant that feeds
`doSimplex` (its `buildTargetFunction` is `buildArtificialTargetFunction`):
textually the same construction as `artificial.createInitialState`. -/
def createInitialArtificialState (pb : ProblemData) : SolverState :=
  artificial.createInitialState pb

/-! ### Single-phase simplex with a user-supplied basis

Two variants are embedded: `simplexSolver.ts` (`prepareInitialState`,
`analyzeStep`) and the step-mode rewrite (`createInitialState`,
`solveSimplexStep` with an `unbasis`-indexed tableau). -/

/-- `extractColumnsForDisplay` from `utils.ts`. -/
def extractColumnsForDisplay (matrix : List (List ℚ)) (displayIndices : List ℕ) :
    List (List ℚ) :=
  let lastCol := (matrix.headD []).length - 1
  matrix.map (fun row =>
    (displayIndices.map (fun c => row.getD c 0)) ++ [row.getD lastCol 0])

/-- `extractZForDisplay` from `utils.ts`. -/
def extractZForDisplay (z : List ℚ) (displayIndices : List ℕ) : List ℚ :=
  (displayIndices.map (fun c => if c < z.length then z.getD c 0 else 0))
    ++ [if 0 < z.length then z.getD (z.length - 1) 0 else 0]

/-- The row-swap search of `solveGauss`: the first of `remaining` rows from
`k` on whose entry in column `minor` exceeds EPS in absolute value. -/
def findSwapRow (coeffs : List (List ℚ)) (minor : ℕ) : ℕ → ℕ → Option ℕ
  | 0, _ => none
  | remaining + 1, k =>
      if |getEntry coeffs k minor| > EPS then some k
      else findSwapRow coeffs minor remaining (k + 1)

/-- Swapping rows `i` and `k` of a matrix. -/
def swapRows (m : List (List ℚ)) (i k : ℕ) : List (List ℚ) :=
  let ri := m.getD i []
  let rk := m.getD k []
  (m.set i rk).set k ri

namespace simplexSolver

/-- `SimplexState` from `simplexSolver.ts`: basis entries are 0-based column
indices. -/
structure SimplexState where
  matrix : List (List ℚ)
  basis : List ℕ
deriving DecidableEq, Repr

/-- One round of `solveGauss` from `simplexSolver.ts`: swap in a usable pivot
row if needed, normalize it when the pivot exceeds EPS, and eliminate the
basis column from every other row (even when the pivot was too small to
normalize, exactly as the source does). -/
def gaussRound (n : ℕ) (basis : List ℕ) (coeffs : List (List ℚ)) (i : ℕ) :
    List (List ℚ) :=
  let minor := basis.getD i 0
  let coeffs1 :=
    if |getEntry coeffs i minor| < EPS then
      match findSwapRow coeffs minor (n - (i + 1)) (i + 1) with
      | some k => swapRows coeffs i k
      | none => coeffs
    else coeffs
  let p := getEntry coeffs1 i minor
  let coeffs2 :=
    if |p| > EPS then coeffs1.set i ((coeffs1.getD i []).map (fun a => a / p))
    else coeffs1
  coeffs2.mapIdx (fun k row =>
    if k = i then row
    else row.mapIdx (fun j a => a - row.getD minor 0 * getEntry coeffs2 i j))

/-- `solveGauss` from `simplexSolver.ts`. -/
def solveGauss (coefficients : List (List ℚ)) (n : ℕ) (basis : List ℕ) :
    List (List ℚ) :=
  (List.range n).foldl (gaussRound n basis) coefficients

/-- `isValidBasis` from `simplexSolver.ts`: every row's own basis column entry
must be at least EPS in absolute value in the raw matrix. -/
def isValidBasis (matrix : List (List ℚ)) (basis : List ℕ) : Bool :=
  (List.range basis.length).all (fun row =>
    !decide (|getEntry matrix row (basis.getD row 0)| < EPS))

/-- `prepareInitialState` from `simplexSolver.ts`; `{ ok: false }` is `none`.
`Number.isInteger(idx) && idx >= 0` holds of every `ℕ` and is not rendered. -/
def prepareInitialState (pb : ProblemData) (indexBasis : List ℕ) :
    Option SimplexState :=
  if indexBasis.length ≠ pb.numConstraints then none
  else if ¬ (indexBasis.all (fun idx => decide (idx < pb.numVariables)) = true) then none
  else if ¬ indexBasis.Nodup then none
  else
    let matrix := buildMatrix pb
    if ¬ (isValidBasis matrix indexBasis = true) then none
    else some { matrix := solveGauss matrix pb.numConstraints indexBasis
                basis := indexBasis }

/-- `getNonBasic` from `simplexSolver.ts`. -/
def getNonBasic (totalCols : ℕ) (basis : List ℕ) : List ℕ :=
  (List.range (totalCols - 1)).filter (fun i => !basis.contains i)

/-- `computeTargetFunction` from `simplexSolver.ts`. -/
def computeTargetFunction (pb : ProblemData) (matrix : List (List ℚ))
    (basis : List ℕ) : List ℚ :=
  let cols := (matrix.headD []).length
  (List.range cols).map (fun col =>
    (if col < pb.numVariables then pb.objectiveCoefficients.getD col 0 else 0)
    - ((List.range basis.length).map (fun row =>
        let cB := pb.objectiveCoefficients.getD (basis.getD row 0) 0
        if |cB| < EPS then 0 else cB * getEntry matrix row col)).sum)

/-- The pivot-candidate loop of `analyzeStep` in `simplexSolver.ts`: display
columns are scanned in order; rows with a coefficient above EPS compete on the
ratio test; the recorded pivot column is the display position. -/
def analyzeCols (matrix : List (List ℚ)) (tf : List ℚ) (basisLen lastCol : ℕ) :
    List ℕ → ℕ → List (ℕ × ℕ) × Bool
  | [], _ => ([], false)
  | col :: restCols, displayCol =>
      let rest := analyzeCols matrix tf basisLen lastCol restCols (displayCol + 1)
      if neg (tf.getD col 0) then
        match findLeavingRow pos 0 matrix lastCol col basisLen 0 none with
        | some rr => ((rr.1, displayCol) :: rest.1, true)
        | none => (rest.1, true)
      else rest

/-- `analyzeStep` from `simplexSolver.ts` (the `step` component). -/
def analyzeStep (pb : ProblemData) (state : SimplexState) : Step :=
  let totalCols := (state.matrix.headD []).length
  let nonBasic := getNonBasic totalCols state.basis
  let tf := computeTargetFunction pb state.matrix state.basis
  let found := analyzeCols state.matrix tf state.basis.length (totalCols - 1) nonBasic 0
  { matrix := extractColumnsForDisplay state.matrix nonBasic
    z := extractZForDisplay tf nonBasic
    potentialPivots := found.1
    colsVariables := nonBasic.map (fun i => i + 1)
    rowVariables := state.basis.map (fun i => i + 1)
    selectedPivotIndex := none
    solutionType :=
      if !found.2 then .optimal
      else if found.1.length = 0 then .unbounded
      else .notSolved }

end simplexSolver

namespace stepSimplex

/-- `SimplexState` from the step-mode single-phase rewrite
(`createInitialState` / `solveSimplexStep`): the tableau is indexed by the
non-basic columns (`unbasis`) plus the RHS. -/
structure SimplexState where
  matrix : List (List ℚ)
  basis : List ℕ
  unbasis : List ℕ
  z : List ℚ
deriving DecidableEq, Repr

/-- One round of `solveGauss` from the step-mode rewrite: unlike the
`simplexSolver.ts` version it skips the whole round when the pivot stays
below EPS after the swap attempt. -/
def gaussRound (n : ℕ) (basis : List ℕ) (coeffs : List (List ℚ)) (i : ℕ) :
    List (List ℚ) :=
  let pivotCol := basis.getD i 0
  let coeffs1 :=
    if |getEntry coeffs i pivotCol| < EPS then
      match findSwapRow coeffs pivotCol (n - (i + 1)) (i + 1) with
      | some k => swapRows coeffs i k
      | none => coeffs
    else coeffs
  let p := getEntry coeffs1 i pivotCol
  if |p| < EPS then coeffs1
  else
    let coeffs2 := coeffs1.set i ((coeffs1.getD i []).map (fun a => a / p))
    coeffs2.mapIdx (fun k row =>
      if k = i then row
      else row.mapIdx (fun j a => a - row.getD pivotCol 0 * getEntry coeffs2 i j))

/-- `solveGauss` from the step-mode rewrite. -/
def solveGauss (coefficients : List (List ℚ)) (n : ℕ) (basis : List ℕ) :
    List (List ℚ) :=
  (List.range n).foldl (gaussRound n basis) coefficients

/-- `isBasisLengthValid` from the step-mode rewrite. -/
def isBasisLengthValid (pb : ProblemData) (basis : List ℕ) : Bool :=
  decide (basis.length = pb.numConstraints)

/-- `isBasisIndicesValid` from the step-mode rewrite: distinct, in-range
indices (`Number.isInteger(col) && col >= 0` holds of every `ℕ`). -/
def isBasisIndicesValid (pb : ProblemData) (basis : List ℕ) : Bool :=
  decide basis.Nodup && basis.all (fun col => decide (col < pb.numVariables))

/-- `isBasisCanonical` from the step-mode rewrite: after Gauss elimination the
basis columns must form the identity within EPS. -/
def isBasisCanonical (matrix : List (List ℚ)) (basis : List ℕ) : Bool :=
  (List.range basis.length).all (fun row =>
    (List.range basis.length).all (fun k =>
      !decide (|getEntry matrix k (basis.getD row 0) - (if row = k then 1 else 0)| > EPS)))

/-- `isBasicFeasible` from the step-mode rewrite: every RHS at least -EPS. -/
def isBasicFeasible (matrix : List (List ℚ)) : Bool :=
  let rhsIndex := (matrix.headD []).length - 1
  matrix.all (fun row => decide (row.getD rhsIndex 0 ≥ -EPS))

/-- `createUnbasis` from the step-mode rewrite. -/
def createUnbasis (numVariables : ℕ) (basis : List ℕ) : List ℕ :=
  (List.range numVariables).filter (fun col => !basis.contains col)

/-- `buildSimplexMatrix` from the step-mode rewrite. -/
def buildSimplexMatrix (canonical : List (List ℚ)) (unbasis : List ℕ) :
    List (List ℚ) :=
  let rhsIndex := (canonical.headD []).length - 1
  canonical.map (fun row =>
    (unbasis.map (fun col => row.getD col 0)) ++ [row.getD rhsIndex 0])

/-- `computeTargetFunction` from the step-mode rewrite (over the
`unbasis`-indexed tableau). -/
def computeTargetFunction (pb : ProblemData) (simplexMatrix : List (List ℚ))
    (basis unbasis : List ℕ) : List ℚ :=
  (List.range (unbasis.length + 1)).map (fun col =>
    (if col < unbasis.length then
      pb.objectiveCoefficients.getD (unbasis.getD col 0) 0
    else 0)
    - ((List.range basis.length).map (fun row =>
        let cB := pb.objectiveCoefficients.getD (basis.getD row 0) 0
        if |cB| < EPS then 0 else cB * getEntry simplexMatrix row col)).sum)

/-- `createInitialState` from the step-mode rewrite: `null` is `none`. -/
def createInitialState (pb : ProblemData) (indexBasis : List ℕ) :
    Option SimplexState :=
  if ¬ (isBasisLengthValid pb indexBasis = true ∧ isBasisIndicesValid pb indexBasis = true) then
    none
  else
    let matrix := normalizeRhs (buildMatrix pb)
    let canonical := solveGauss matrix pb.numConstraints indexBasis
    if ¬ (isBasisCanonical canonical indexBasis = true ∧ isBasicFeasible canonical = true) then
      none
    else
      let unbasis := createUnbasis pb.numVariables indexBasis
      let simplexMatrix := buildSimplexMatrix canonical unbasis
      some { matrix := simplexMatrix
             basis := indexBasis
             unbasis
             z := computeTargetFunction pb simplexMatrix indexBasis unbasis }

/-- `createSnapshot` from the step-mode rewrite: the shared pivot search with
`pos` eligibility and the SIMPLEX_RATIO_EPSILON slack. -/
def createSnapshot (state : SimplexState) : Step :=
  let found := findPotentialPivots state.matrix state.z
    { canLeaveBasis := pos, ratioEpsilon := some EPS }
  { matrix := state.matrix
    z := state.z
    potentialPivots := found.1
    colsVariables := state.unbasis.map (fun col => col + 1)
    rowVariables := state.basis.map (fun col => col + 1)
    selectedPivotIndex := none
    solutionType := resolveSolutionType found.2 found.1 }

/-- `executeSimplexPivot` from the step-mode rewrite (the modified Jordan
exchange that also rewrites the pivot column). -/
def executeSimplexPivot (matrix : List (List ℚ)) (pivotRow pivotCol : ℕ) :
    List (List ℚ) :=
  let s := getEntry matrix pivotRow pivotCol
  if |s| < EPS then matrix
  else
    let newSupport := (matrix.getD pivotRow []).mapIdx (fun c a =>
      if c = pivotCol then 1 / s else a / s)
    matrix.mapIdx (fun r row =>
      if r = pivotRow then newSupport
      else row.mapIdx (fun c a =>
        if c = pivotCol then -(a / s)
        else a - row.getD pivotCol 0 * newSupport.getD c 0))

/-- `restoreStateFromStep` from the step-mode rewrite. -/
def restoreStateFromStep (pb : ProblemData) (step : Step) : SimplexState :=
  let basis := step.rowVariables.map (fun name => name - 1)
  let unbasis := step.colsVariables.map (fun name => name - 1)
  { matrix := step.matrix
    basis
    unbasis
    z := computeTargetFunction pb step.matrix basis unbasis }

/-- The single `infeasible` placeholder step with empty matrix and labels. -/
def infeasibleStep : Step where
  matrix := []
  z := []
  potentialPivots := []
  colsVariables := []
  rowVariables := []
  selectedPivotIndex := none
  solutionType := .infeasible

/-- `solveSimplexStep` from the step-mode rewrite. -/
def solveSimplexStep (pb : ProblemData) (indexBasis : List ℕ)
    (previousSteps : List Step) (selectedPivotIndex : Option ℕ) : List Step :=
  match previousSteps.getLast? with
  | none =>
    match createInitialState pb indexBasis with
    | none => [infeasibleStep]
    | some initial => previousSteps ++ [createSnapshot initial]
  | some lastStep =>
    if lastStep.potentialPivots.length = 0 ∨
        lastStep.solutionType ≠ SolutionType.notSolved then previousSteps
    else
      let chosenPivotIndex := selectedPivotIndex.getD 0
      match lastStep.potentialPivots.get? chosenPivotIndex with
      | none => previousSteps
      | some pivotPoint =>
        let annotated := previousSteps.set (previousSteps.length - 1)
          { lastStep with selectedPivotIndex := some chosenPivotIndex }
        let state0 := restoreStateFromStep pb lastStep
        let matrix2 := executeSimplexPivot state0.matrix pivotPoint.1 pivotPoint.2
        let leavingVariable := state0.basis.getD pivotPoint.1 0
        let basis2 := state0.basis.set pivotPoint.1 (state0.unbasis.getD pivotPoint.2 0)
        let unbasis2 := state0.unbasis.set pivotPoint.2 leavingVariable
        let state2 : SimplexState :=
          { matrix := matrix2, basis := basis2, unbasis := unbasis2
            z := computeTargetFunction pb matrix2 basis2 unbasis2 }
        annotated ++ [createSnapshot state2]

end stepSimplex

/-! ### Basic access lemmas -/

lemma getD_of_lt {α : Type} (l : List α) (i : ℕ) (d : α) (h : i < l.length) :
    l.getD i d = l.get ⟨i, h⟩ := by
  simp [List.getD_eq_getElem?_getD, List.getElem?_eq_getElem h]

lemma getD_mapIdx {α β : Type} (l : List α) (f : ℕ → α → β) (i : ℕ) (d₁ : β) (d₂ : α)
    (h : i < l.length) : (l.mapIdx f).getD i d₁ = f i (l.getD i d₂) := by
  rw [getD_of_lt _ _ _ (by simpa using h), getD_of_lt _ _ _ h, List.get_mapIdx]

lemma getD_map {α β : Type} (l : List α) (f : α → β) (i : ℕ) (d₁ : β) (d₂ : α)
    (h : i < l.length) : (l.map f).getD i d₁ = f (l.getD i d₂) := by
  rw [getD_of_lt _ _ _ (by simpa using h), getD_of_lt _ _ _ h]
  simp

lemma getD_range (n i : ℕ) (h : i < n) : (List.range n).getD i 0 = i := by
  rw [getD_of_lt _ _ _ (by simpa using h)]
  simp

lemma headD_eq_getD_zero {α : Type} (l : List α) (d : α) : l.headD d = l.getD 0 d := by
  cases l <;> rfl

lemma map_div_getD (l : List ℚ) (p : ℚ) (j : ℕ) :
    (l.map (fun a => a / p)).getD j 0 = l.getD j 0 / p := by
  by_cases h : j < l.length
  · exact getD_map _ _ _ _ _ h
  · rw [List.getD_eq_default _ _ (le_of_not_lt (by simpa using h)),
      List.getD_eq_default _ _ (le_of_not_lt h), zero_div]

lemma map_neg_getD (l : List ℚ) (j : ℕ) :
    (l.map (fun a => -a)).getD j 0 = -(l.getD j 0) := by
  by_cases h : j < l.length
  · exact getD_map _ _ _ _ _ h
  · rw [List.getD_eq_default _ _ (le_of_not_lt (by simpa using h)),
      List.getD_eq_default _ _ (le_of_not_lt h), neg_zero]

/-- The entrywise description of `performPivot`: the pivot row is divided by
the pivot element, and every other row is reduced by its own pivot-column
coefficient times the normalized pivot row. -/
lemma performPivot_getEntry (m : List (List ℚ)) (pR pC i j : ℕ)
    (hi : i < m.length) (hj : i = pR ∨ j < (m.getD i []).length) :
    getEntry (performPivot m pR pC) i j =
      if i = pR then getEntry m pR j / getEntry m pR pC
      else getEntry m i j - getEntry m i pC * (getEntry m pR j / getEntry m pR pC) := by
  unfold performPivot getEntry
  rw [getD_mapIdx m _ i [] [] hi]
  by_cases hip : i = pR
  · subst hip
    simp only [if_pos rfl]
    exact map_div_getD _ _ _
  · simp only [if_neg hip]
    rcases hj with hj | hj
    · exact absurd hj hip
    · rw [getD_mapIdx _ _ j 0 0 hj, map_div_getD]

/-- Single-application canonical-form facts of the pivot operation: provided
the pivot element is nonzero, `performPivot` produces a matrix whose pivot
column is 1 in the pivot row and 0 in every other row, and it preserves every
existing identity column whose unit sits outside the pivot row. -/
lemma performPivot_pivot_column
    (matrix : List (List ℚ)) (pivotRow pivotCol : ℕ)
    (hp : getEntry matrix pivotRow pivotCol ≠ 0) :
    getEntry (performPivot matrix pivotRow pivotCol) pivotRow pivotCol = 1 ∧
    (∀ i, i < matrix.length → i ≠ pivotRow →
      getEntry (performPivot matrix pivotRow pivotCol) i pivotCol = 0) ∧
    (∀ j k, k < matrix.length → k ≠ pivotRow → j ≠ pivotCol →
      (∀ i, i < matrix.length → getEntry matrix i j = if i = k then 1 else 0) →
      ∀ i, i < matrix.length → j < (matrix.getD i []).length →
        getEntry (performPivot matrix pivotRow pivotCol) i j = if i = k then 1 else 0) := by
  have hnumJ : ∀ j k, k < matrix.length → k ≠ pivotRow →
      (∀ i, i < matrix.length → getEntry matrix i j = if i = k then 1 else 0) →
      getEntry matrix pivotRow j = 0 := by
    intro j k hk hkr hcol
    by_cases hpr : pivotRow < matrix.length
    · rw [hcol pivotRow hpr, if_neg (fun h => hkr h.symm)]
    · unfold getEntry
      rw [List.getD_eq_default _ _ (le_of_not_lt hpr)]
      simp
  refine ⟨?_, ?_, ?_⟩
  · have hr : pivotRow < matrix.length := by
      by_contra hr
      apply hp
      unfold getEntry
      rw [List.getD_eq_default _ _ (le_of_not_lt hr)]
      simp
    rw [performPivot_getEntry matrix pivotRow pivotCol pivotRow pivotCol hr (Or.inl rfl),
      if_pos rfl, div_self hp]
  · intro i hi hne
    by_cases hic : pivotCol < (matrix.getD i []).length
    · rw [performPivot_getEntry matrix pivotRow pivotCol i pivotCol hi (Or.inr hic),
        if_neg hne, div_self hp]
      ring
    · unfold performPivot getEntry
      rw [getD_mapIdx matrix _ i [] [] hi, if_neg hne]
      rw [List.getD_eq_default _ _ (by simp only [List.length_mapIdx]; exact le_of_not_lt hic)]
  · intro j k hk hkr hjc hcol i hi hij
    have hnum := hnumJ j k hk hkr hcol
    rw [performPivot_getEntry matrix pivotRow pivotCol i j hi (Or.inr hij)]
    by_cases hip : i = pivotRow
    · subst hip
      rw [if_pos rfl, hnum, zero_div, if_neg (fun h => hkr h.symm)]
    · rw [if_neg hip, hcol i hi, hnum, zero_div, mul_zero, sub_zero]


/-! ### Concrete fixture problems used by witnesses and counterexamples -/

/-- Maximize x1 subject to x1 = 1. -/
def probMaxX1 : ProblemData where
  numVariables := 1
  numConstraints := 1
  objectiveCoefficients := [1]
  constraintMatrix := [[1]]
  rightHandSide := [1]
  objectiveType := .max

/-- Zero objective, single constraint x1 = 1 (its Phase I transitions to
Phase II after one pivot). -/
def probZeroObj : ProblemData where
  numVariables := 1
  numConstraints := 1
  objectiveCoefficients := [0]
  constraintMatrix := [[1]]
  rightHandSide := [1]
  objectiveType := .max

/-- Infeasible: x1 = 1 and x1 = 2 simultaneously. -/
def probInfeasible : ProblemData where
  numVariables := 1
  numConstraints := 2
  objectiveCoefficients := [0]
  constraintMatrix := [[1], [1]]
  rightHandSide := [1, 2]
  objectiveType := .max

/-- A constraint row with negative right-hand side, x1 = -2. -/
def probNegRhs : ProblemData where
  numVariables := 1
  numConstraints := 1
  objectiveCoefficients := [0]
  constraintMatrix := [[1]]
  rightHandSide := [-2]
  objectiveType := .min

/-- x1 = -1: the basis [0] Gauss-eliminates to a tableau with negative RHS. -/
def probNegBasis : ProblemData where
  numVariables := 1
  numConstraints := 1
  objectiveCoefficients := [1]
  constraintMatrix := [[1]]
  rightHandSide := [-1]
  objectiveType := .max

/-! ### C8: Phase-I initial tableau construction -/

lemma length_buildMatrix (pb : ProblemData) : (buildMatrix pb).length = pb.numConstraints := by
  simp [buildMatrix]

lemma buildMatrix_row (pb : ProblemData) (i : ℕ) (h : i < pb.numConstraints) :
    (buildMatrix pb).getD i [] =
      ((List.range pb.numVariables).map (fun j => getEntry pb.constraintMatrix i j))
        ++ [pb.rightHandSide.getD i 0] := by
  unfold buildMatrix
  rw [getD_map _ _ _ _ 0 (by simpa using h), getD_range _ _ h]

lemma buildMatrix_row_length (pb : ProblemData) (i : ℕ) (h : i < pb.numConstraints) :
    ((buildMatrix pb).getD i []).length = pb.numVariables + 1 := by
  rw [buildMatrix_row pb i h]
  simp

lemma normalizeRhs_length (m : List (List ℚ)) : (normalizeRhs m).length = m.length := by
  simp [normalizeRhs]

lemma normalizeRhs_row (m : List (List ℚ)) (i : ℕ) (h : i < m.length) :
    (normalizeRhs m).getD i [] =
      (if (m.getD i []).getD ((m.headD []).length - 1) 0 ≥ 0 then m.getD i []
       else (m.getD i []).map (fun v => -v)) := by
  unfold normalizeRhs
  rw [getD_map _ _ _ _ [] h]

lemma normalizeRhs_row_length (m : List (List ℚ)) (i : ℕ) :
    ((normalizeRhs m).getD i []).length = (m.getD i []).length := by
  by_cases h : i < m.length
  · rw [normalizeRhs_row m i h]
    split <;> simp
  · rw [List.getD_eq_default _ _ (le_of_not_lt (by simpa [normalizeRhs_length] using h)),
      List.getD_eq_default _ _ (le_of_not_lt h)]

/-- C8.  Phase-I construction: every raw constraint row with negative RHS is
negated in full and rows with nonnegative RHS are kept, so all right-hand
sides of the initial tableau are nonnegative; the initial Phase-I z-row entry
of every column is minus that column's sum over the normalized augmented
matrix; and the artificial variables x&lt;numVariables+i&gt; label the rows as the
initial basis. -/
theorem createInitialState_phase1_construction (pb : ProblemData)
    (hc : 0 < pb.numConstraints) :
    ((artificial.createInitialState pb).matrix.length = pb.numConstraints) ∧
    (∀ i, i < pb.numConstraints →
      (artificial.createInitialState pb).matrix.getD i [] =
        (if ((buildMatrix pb).getD i []).getD pb.numVariables 0 ≥ 0
         then (buildMatrix pb).getD i []
         else ((buildMatrix pb).getD i []).map (fun v => -v))) ∧
    (∀ i, i < pb.numConstraints →
      0 ≤ ((artificial.createInitialState pb).matrix.getD i []).getD pb.numVariables 0) ∧
    ((artificial.createInitialState pb).z.length = pb.numVariables + 1) ∧
    (∀ j, j < pb.numVariables + 1 →
      (artificial.createInitialState pb).z.getD j 0 =
        -(((List.range pb.numConstraints).map
            (fun i => getEntry (artificial.createInitialState pb).matrix i j)).sum)) ∧
    ((artificial.createInitialState pb).rowVariables =
      (List.range pb.numConstraints).map (fun i => i + pb.numVariables + 1)) := by
  have hhead : ((buildMatrix pb).headD []).length = pb.numVariables + 1 := by
    rw [headD_eq_getD_zero]
    exact buildMatrix_row_length pb 0 hc
  have hrhsIdx : ((buildMatrix pb).headD []).length - 1 = pb.numVariables := by
    rw [hhead]
    simp
  have hmlen : (artificial.createInitialState pb).matrix.length = pb.numConstraints := by
    show (normalizeRhs (buildMatrix pb)).length = _
    rw [normalizeRhs_length, length_buildMatrix]
  have hrow : ∀ i, i < pb.numConstraints →
      (artificial.createInitialState pb).matrix.getD i [] =
        (if ((buildMatrix pb).getD i []).getD pb.numVariables 0 ≥ 0
         then (buildMatrix pb).getD i []
         else ((buildMatrix pb).getD i []).map (fun v => -v)) := by
    intro i hi
    show (normalizeRhs (buildMatrix pb)).getD i [] = _
    rw [normalizeRhs_row _ i (by rw [length_buildMatrix]; exact hi), hrhsIdx]
  have hzdef : (artificial.createInitialState pb).z =
      artificial.buildArtificialTargetFunction (normalizeRhs (buildMatrix pb)) := rfl
  have hheadn : ((normalizeRhs (buildMatrix pb)).headD []).length = pb.numVariables + 1 := by
    rw [headD_eq_getD_zero, normalizeRhs_row_length, ← headD_eq_getD_zero, hhead]
  have hzlen : (artificial.createInitialState pb).z.length = pb.numVariables + 1 := by
    rw [hzdef]
    unfold artificial.buildArtificialTargetFunction
    rw [List.length_map, List.length_range, hheadn]
  refine ⟨hmlen, hrow, ?_, hzlen, ?_, rfl⟩
  · intro i hi
    rw [hrow i hi]
    by_cases h : ((buildMatrix pb).getD i []).getD pb.numVariables 0 ≥ 0
    · rw [if_pos h]
      exact h
    · rw [if_neg h, map_neg_getD]
      have : ((buildMatrix pb).getD i []).getD pb.numVariables 0 < 0 := lt_of_not_ge h
      linarith
  · intro j hj
    rw [hzdef]
    unfold artificial.buildArtificialTargetFunction
    rw [getD_map _ _ _ _ 0 (by rw [List.length_range, hheadn]; exact hj),
      getD_range _ _ (by rw [hheadn]; exact hj)]
    have hlen : (normalizeRhs (buildMatrix pb)).length = pb.numConstraints := by
      rw [normalizeRhs_length, length_buildMatrix]
    rw [hlen]
    rfl

/-- Witness for C8 on the fixture with negative right-hand side. -/
theorem createInitialState_phase1_construction_witness :
    0 ≤ ((artificial.createInitialState probNegRhs).matrix.getD 0 []).getD 1 0 ∧
    (artificial.createInitialState probNegRhs).z.length = 2 :=
  ⟨(createInitialState_phase1_construction probNegRhs (by decide)).2.2.1 0 (by decide),
   (createInitialState_phase1_construction probNegRhs (by decide)).2.2.2.1⟩

/-- A terminal snapshot, as produced at the end of a solve of `probZeroObj`. -/
def stepTerminal : Step where
  matrix := [[1]]
  z := [0]
  potentialPivots := []
  colsVariables := []
  rowVariables := [1]
  solutionType := .optimal

/-- The initial Phase-I solver state of `probZeroObj`. -/
def stateFix : SolverState where
  matrix := [[1, 1]]
  z := [-1, -1]
  colsVariables := [1]
  rowVariables := [2]
  artificialPhase := true

/-! ### C2: the advance operations absorb misuse as a no-op -/

/-- C2.  Advancing a history whose last step is terminal
(`solutionType ≠ not-solved`) or has no candidate pivots, or supplying a pivot
index out of range of the last step's `potentialPivots`, returns the history
unchanged — for `solveArtificialStep` and for `solveStepMode` alike, and
without any error path. -/
theorem advance_noop_on_terminal_or_out_of_range
    (pb : ProblemData) (initialState : SolverState) (method : Method)
    (steps : List Step) (lastStep : Step) (idx : Option ℕ)
    (hlast : steps.getLast? = some lastStep)
    (hcond : lastStep.potentialPivots = [] ∨ lastStep.solutionType ≠ .notSolved ∨
             lastStep.potentialPivots.length ≤ idx.getD 0) :
    artificial.solveArtificialStep pb steps idx = steps ∧
    solver.solveStepMode pb steps initialState method idx = steps := by
  unfold artificial.solveArtificialStep solver.solveStepMode
  rw [hlast]
  dsimp only
  refine ⟨?_, ?_⟩ <;>
  · rcases hcond with h | h | h
    · rw [if_pos (Or.inl (by rw [h]; rfl))]
    · rw [if_pos (Or.inr h)]
    · by_cases hguard : lastStep.potentialPivots.length = 0 ∨
          lastStep.solutionType ≠ SolutionType.notSolved
      · rw [if_pos hguard]
      · rw [if_neg hguard, List.get?_eq_none.mpr h]

/-- Witness for C2: advancing a one-step terminal history with the
out-of-range pivot index 5 is a no-op for both advance functions. -/
theorem advance_noop_on_terminal_or_out_of_range_witness :
    artificial.solveArtificialStep probZeroObj [stepTerminal] (some 5) = [stepTerminal] ∧
    solver.solveStepMode probZeroObj [stepTerminal]
      (artificial.createInitialState probZeroObj) .artificial (some 5) = [stepTerminal] :=
  advance_noop_on_terminal_or_out_of_range probZeroObj
    (artificial.createInitialState probZeroObj) .artificial [stepTerminal] stepTerminal
    (some 5) rfl (Or.inl rfl)

/-! ### C10: every artificial-method pivot deletes the entering column -/

lemma performPivot_length (m : List (List ℚ)) (r c : ℕ) :
    (performPivot m r c).length = m.length := by
  simp [performPivot]

lemma performPivot_row_length (m : List (List ℚ)) (r c i : ℕ) (h : i < m.length) :
    ((performPivot m r c).getD i []).length = (m.getD i []).length := by
  unfold performPivot
  rw [getD_mapIdx m _ i [] [] h]
  by_cases hip : i = r
  · subst hip
    simp
  · rw [if_neg hip]
    simp

lemma length_eraseIdx_lt {α : Type} (l : List α) (c : ℕ) (h : c < l.length) :
    (l.eraseIdx c).length = l.length - 1 := by
  rw [List.length_eraseIdx]
  simp [h]

lemma dropLast_getD {α : Type} (l : List α) (i : ℕ) (d : α) (h : i < l.length - 1) :
    l.dropLast.getD i d = l.getD i d := by
  rw [getD_of_lt _ _ _ (by simpa using h), getD_of_lt _ _ _ (by omega)]
  simp [List.getElem_dropLast]

lemma getD_append_left {α : Type} (l1 l2 : List α) (i : ℕ) (d : α) (h : i < l1.length) :
    (l1 ++ l2).getD i d = l1.getD i d := by
  rw [getD_of_lt _ _ _ (by simp; omega), getD_of_lt _ _ _ h]
  exact List.getElem_append_left h

lemma getLast?_getD_of_ne_nil {α : Type} (l : List α) (d : α) (h : l ≠ []) :
    l.getLast?.getD d = l.getD (l.length - 1) d := by
  have hlen : 0 < l.length := List.length_pos.mpr h
  rw [List.getLast?_eq_getElem?, getD_of_lt _ _ _ (by omega)]
  simp [List.getElem?_eq_getElem (by omega : l.length - 1 < l.length)]

/-- The length of the rebuilt original z-row is the matrix's leading row
width. -/
lemma rebuildOriginalZA_length (pb : ProblemData) (matrix : List (List ℚ))
    (rowVariables colsVariables : List ℕ) :
    (artificial.rebuildOriginalZ pb matrix rowVariables colsVariables).length =
      (matrix.headD []).length := by
  unfold artificial.rebuildOriginalZ
  simp

/-- `appendNextSnapshot` returns the given history extended by one or two new
snapshots; every new snapshot carries the state's matrix and labels, fresh
pivot candidates and classification for its own z-row, and no recorded pivot
selection; only the final new snapshot can be `not-solved`. -/
lemma appendNextSnapshotA_shape (pb : ProblemData) (steps : List Step) (st : SolverState) :
    ∃ tail : List Step, artificial.appendNextSnapshot pb steps st = steps ++ tail ∧
      tail ≠ [] ∧ tail.length ≤ 2 ∧
      (∀ s ∈ tail, s.matrix = st.matrix ∧ s.colsVariables = st.colsVariables ∧
        s.rowVariables = st.rowVariables ∧ s.selectedPivotIndex = none ∧
        s.potentialPivots = (findPotentialPivotsA s.matrix s.z).1 ∧
        s.solutionType = resolveSolutionType (findPotentialPivotsA s.matrix s.z).2
          (findPotentialPivotsA s.matrix s.z).1 ∧
        (s.z = st.z ∨ s.z.length = (st.matrix.headD []).length)) ∧
      (∀ s ∈ tail.dropLast, s.solutionType ≠ SolutionType.notSolved) := by
  by_cases hcond : (snapshotOf st).solutionType ≠ SolutionType.notSolved ∧
      st.artificialPhase = true ∧ isAllZero st.z = true
  · refine ⟨[snapshotOf st, snapshotOf { st with
        z := artificial.rebuildOriginalZ pb st.matrix st.rowVariables st.colsVariables
        artificialPhase := false }], ?_, by simp, by simp, ?_, ?_⟩
    · unfold artificial.appendNextSnapshot
      dsimp only
      rw [if_pos hcond, List.append_assoc]
      rfl
    · intro s hs
      simp only [List.mem_cons, List.not_mem_nil, or_false] at hs
      rcases hs with hs | hs <;> subst hs
      · exact ⟨rfl, rfl, rfl, rfl, rfl, rfl, Or.inl rfl⟩
      · exact ⟨rfl, rfl, rfl, rfl, rfl, rfl, Or.inr (rebuildOriginalZA_length pb _ _ _)⟩
    · intro s hs
      simp only [List.dropLast, List.mem_singleton] at hs
      subst hs
      exact hcond.1
  · refine ⟨[snapshotOf st], ?_, by simp, by simp, ?_, by simp⟩
    · unfold artificial.appendNextSnapshot
      dsimp only
      rw [if_neg hcond]
    · intro s hs
      simp only [List.mem_cons, List.not_mem_nil, or_false] at hs
      subst hs
      exact ⟨rfl, rfl, rfl, rfl, rfl, rfl, Or.inl rfl⟩

/-- C10.  In the artificial-basis method every applied pivot permanently
deletes the entering variable's column: the new state's `colsVariables` are
the old ones with exactly the entering label removed (both in `artificial.ts`
and in `solver.ts` with method artificial), the non-basic column count
strictly decreases, each matrix row and the z-row lose exactly one entry, the
entering label moves to the pivot row's basis slot — and every snapshot
appended by an advancing `solveArtificialStep` call carries the reduced column
labels, so an entered variable can never become non-basic again. -/
theorem artificial_pivot_deletes_entering_column
    (st : SolverState) (r c : ℕ) (hc : c < st.colsVariables.length) :
    (artificial.applyPivotToState st (r, c)).colsVariables = st.colsVariables.eraseIdx c ∧
    (solver.applyPivotToState st (r, c) .artificial).colsVariables = st.colsVariables.eraseIdx c ∧
    (artificial.applyPivotToState st (r, c)).colsVariables.length = st.colsVariables.length - 1 ∧
    (artificial.applyPivotToState st (r, c)).rowVariables =
      st.rowVariables.set r (st.colsVariables.getD c 0) ∧
    (∀ i, i < st.matrix.length → c < (st.matrix.getD i []).length →
      ((artificial.applyPivotToState st (r, c)).matrix.getD i []).length =
        (st.matrix.getD i []).length - 1) ∧
    (∀ i, i < st.matrix.length → c < (st.matrix.getD i []).length →
      ((solver.applyPivotToState st (r, c) .artificial).matrix.getD i []).length =
        (st.matrix.getD i []).length - 1) ∧
    (c < st.z.length →
      (artificial.applyPivotToState st (r, c)).z.length = st.z.length - 1) ∧
    (∀ pb steps lastStep idx pr pc, steps.getLast? = some lastStep →
      lastStep.potentialPivots.get? (idx.getD 0) = some (pr, pc) →
      lastStep.solutionType = SolutionType.notSolved →
      ∀ s ∈ (artificial.solveArtificialStep pb steps idx).drop steps.length,
        s.colsVariables = lastStep.colsVariables.eraseIdx pc) := by
  have hrowlen : ∀ i, i < st.matrix.length → c < (st.matrix.getD i []).length →
      ((performPivot (st.matrix ++ [st.z]) r c).map
        (fun row => row.eraseIdx c)).dropLast.getD i [] =
        ((performPivot (st.matrix ++ [st.z]) r c).getD i []).eraseIdx c := by
    intro i hi hci
    have hfin : ((performPivot (st.matrix ++ [st.z]) r c).map
        (fun row => row.eraseIdx c)).length = st.matrix.length + 1 := by
      rw [List.length_map, performPivot_length]
      simp
    rw [dropLast_getD _ _ _ (by omega)]
    exact getD_map _ _ _ _ [] (by rw [performPivot_length]; simp; omega)
  have hlenrow : ∀ i, i < st.matrix.length → c < (st.matrix.getD i []).length →
      (((performPivot (st.matrix ++ [st.z]) r c).getD i []).eraseIdx c).length =
        (st.matrix.getD i []).length - 1 := by
    intro i hi hci
    rw [length_eraseIdx_lt, performPivot_row_length _ _ _ _ (by simp; omega),
      getD_append_left _ _ _ _ hi]
    rw [performPivot_row_length _ _ _ _ (by simp; omega), getD_append_left _ _ _ _ hi]
    exact hci
  refine ⟨rfl, rfl, ?_, rfl, ?_, ?_, ?_, ?_⟩
  · show (st.colsVariables.eraseIdx c).length = _
    exact length_eraseIdx_lt _ _ hc
  · intro i hi hci
    show ((((performPivot (st.matrix ++ [st.z]) r c).map
      (fun row => row.eraseIdx c)).dropLast.getD i []).length) = _
    rw [hrowlen i hi hci]
    exact hlenrow i hi hci
  · intro i hi hci
    show ((((performPivot (st.matrix ++ [st.z]) r c).map
      (fun row => row.eraseIdx c)).dropLast.getD i []).length) = _
    rw [hrowlen i hi hci]
    exact hlenrow i hi hci
  · intro hcz
    show ((((performPivot (st.matrix ++ [st.z]) r c).map
      (fun row => row.eraseIdx c)).getLast?.getD []).length) = _
    have hfinlen : ((performPivot (st.matrix ++ [st.z]) r c).map
        (fun row => row.eraseIdx c)).length = st.matrix.length + 1 := by
      rw [List.length_map, performPivot_length]
      simp
    rw [getLast?_getD_of_ne_nil _ _ (by
      intro hnil
      rw [hnil] at hfinlen
      simp at hfinlen)]
    rw [hfinlen]
    simp only [Nat.add_sub_cancel]
    rw [getD_map _ _ _ _ [] (by rw [performPivot_length]; simp),
      length_eraseIdx_lt]
    · rw [performPivot_row_length _ _ _ _ (by simp)]
      have : (st.matrix ++ [st.z]).getD st.matrix.length [] = st.z := by
        rw [getD_of_lt _ _ _ (by simp)]
        simp
      rw [this]
    · rw [performPivot_row_length _ _ _ _ (by simp)]
      have : (st.matrix ++ [st.z]).getD st.matrix.length [] = st.z := by
        rw [getD_of_lt _ _ _ (by simp)]
        simp
      rw [this]
      exact hcz
  · intro pb steps lastStep idx pr pc hlast hget htype s hs
    have hlen0 : lastStep.potentialPivots.length ≠ 0 := by
      intro h0
      rw [List.get?_eq_none.mpr (by omega)] at hget
      cases hget
    unfold artificial.solveArtificialStep at hs
    rw [hlast] at hs
    dsimp only at hs
    rw [if_neg (by push_neg; exact ⟨hlen0, by simp [htype]⟩), hget] at hs
    dsimp only at hs
    obtain ⟨tail, heq, -, -, hall, -⟩ := appendNextSnapshotA_shape pb
      (steps.set (steps.length - 1)
        { lastStep with selectedPivotIndex := some (idx.getD 0) })
      (artificial.applyPivotToState (artificial.restoreState pb lastStep) (pr, pc))
    rw [heq] at hs
    rw [List.drop_left' (show (steps.set (steps.length - 1)
        { lastStep with selectedPivotIndex := some (idx.getD 0) }).length = steps.length
      from by simp)] at hs
    exact (hall s hs).2.1

/-- Witness for C10 on the initial state of `probZeroObj`, pivot (0, 0). -/
theorem artificial_pivot_deletes_entering_column_witness :
    (artificial.applyPivotToState stateFix (0, 0)).colsVariables =
      stateFix.colsVariables.eraseIdx 0 ∧
    (artificial.applyPivotToState stateFix (0, 0)).colsVariables.length =
      stateFix.colsVariables.length - 1 :=
  ⟨(artificial_pivot_deletes_entering_column stateFix 0 0 (by decide)).1,
   (artificial_pivot_deletes_entering_column stateFix 0 0 (by decide)).2.2.1⟩

/-! ### C5: a Phase-I optimum with positive artificial objective is not
reported as infeasible

On `probInfeasible` (x1 = 1 and x1 = 2), Phase I ends optimal with the
artificial objective at 1 (final z-row [-1], so the objective reads 1 > EPS).
The engine has no `infeasible` path in the artificial method: it returns the
phase-I tableau with solutionType `optimal`, a non-empty x, and a plain
number as objective — against the spec's INFEASIBLE terminal. -/
theorem solveArtificial_infeasible_reported_optimal :
    ((artificial.solveArtificial probInfeasible 10).steps.map Step.solutionType =
      [SolutionType.notSolved, SolutionType.optimal]) ∧
    (artificial.solveArtificial probInfeasible 10).x = [1] ∧
    (artificial.solveArtificial probInfeasible 10).objective = 0 ∧
    ((artificial.solveArtificial probInfeasible 10).steps.getLast?.map Step.z) =
      some [-1] := by
  decide

/-! ### C9: the z-row objective read by `doSimplex` has the wrong sign for
maximisation problems

On `probMaxX1` (maximize x1 subject to x1 = 1) the run ends `optimal` with
x1 = 1, so re-evaluating the objective gives 1, but `doSimplex` returns the
final z-row's last entry negated, which is -1: the two values the spec
requires to agree within EPS differ by 2. -/
theorem doSimplex_objective_disagrees_on_max :
    ((solver.doSimplex probMaxX1 (createInitialArtificialState probMaxX1)
        .artificial 10).steps.map Step.solutionType =
      [SolutionType.notSolved, SolutionType.optimal, SolutionType.optimal]) ∧
    (solver.doSimplex probMaxX1 (createInitialArtificialState probMaxX1)
        .artificial 10).objective = -1 ∧
    computeObjectiveFromX
      (solver.doSimplex probMaxX1 (createInitialArtificialState probMaxX1)
        .artificial 10).x probMaxX1.objectiveCoefficients = 1 := by
  decide

/-! ### C6: validation of a user-supplied starting basis -/

/-- The pivot-search classification never produces `infeasible`. -/
lemma resolveSolutionType_ne_infeasible (b : Bool) (l : List (ℕ × ℕ)) :
    resolveSolutionType b l ≠ SolutionType.infeasible := by
  unfold resolveSolutionType
  split
  · simp
  · split <;> simp

/-- Counterexample to C6 as stated: on `probNegBasis` (x1 = -1) with basis
[0], `prepareInitialState` accepts the basis although Gauss elimination
leaves the right-hand side -1 &lt; 0, and the engine then classifies the
(infeasible) tableau `optimal` instead of returning an `infeasible` step:
the feasibility check the claim requires is absent from
`prepareInitialState`. -/
theorem prepareInitialState_accepts_negative_rhs_basis :
    (simplexSolver.prepareInitialState probNegBasis [0]).isSome = true ∧
    ((simplexSolver.prepareInitialState probNegBasis [0]).map
      (fun st => getEntry st.matrix 0 1)) = some (-1) ∧
    ((simplexSolver.prepareInitialState probNegBasis [0]).map
      (fun st => (simplexSolver.analyzeStep probNegBasis st).solutionType)) =
      some SolutionType.optimal := by
  decide

/-- C6 (amended).  In the step-mode single-phase solver
(`createInitialState` / `solveSimplexStep`), starting from an empty history
yields the single terminal `infeasible` step with empty matrix and labels,
without iterating, exactly when the supplied basis fails one of its checks:
numConstraints-many distinct in-range indices, a canonical identity over the
basis columns after Gauss elimination, and a feasible tableau (all RHS at
least -EPS); when every check passes, no `infeasible` step is produced. -/
theorem solveSimplexStep_initial_basis_validation (pb : ProblemData) (basis : List ℕ) :
    (stepSimplex.solveSimplexStep pb basis [] none = [stepSimplex.infeasibleStep]) ↔
    ¬ (stepSimplex.isBasisLengthValid pb basis = true ∧
       stepSimplex.isBasisIndicesValid pb basis = true ∧
       stepSimplex.isBasisCanonical
         (stepSimplex.solveGauss (normalizeRhs (buildMatrix pb)) pb.numConstraints basis)
         basis = true ∧
       stepSimplex.isBasicFeasible
         (stepSimplex.solveGauss (normalizeRhs (buildMatrix pb)) pb.numConstraints basis)
         = true) := by
  have hnone : stepSimplex.createInitialState pb basis = none ↔
      ¬ (stepSimplex.isBasisLengthValid pb basis = true ∧
         stepSimplex.isBasisIndicesValid pb basis = true ∧
         stepSimplex.isBasisCanonical
           (stepSimplex.solveGauss (normalizeRhs (buildMatrix pb)) pb.numConstraints basis)
           basis = true ∧
         stepSimplex.isBasicFeasible
           (stepSimplex.solveGauss (normalizeRhs (buildMatrix pb)) pb.numConstraints basis)
           = true) := by
    unfold stepSimplex.createInitialState
    by_cases hAB : stepSimplex.isBasisLengthValid pb basis = true ∧
        stepSimplex.isBasisIndicesValid pb basis = true
    · rw [if_neg (not_not_intro hAB)]
      dsimp only
      by_cases hCD : stepSimplex.isBasisCanonical
            (stepSimplex.solveGauss (normalizeRhs (buildMatrix pb)) pb.numConstraints basis)
            basis = true ∧
          stepSimplex.isBasicFeasible
            (stepSimplex.solveGauss (normalizeRhs (buildMatrix pb)) pb.numConstraints basis)
            = true
      · rw [if_neg (not_not_intro hCD)]
        simp [hAB, hCD]
      · rw [if_pos hCD]
        simp [hAB, hCD]
    · rw [if_pos hAB]
      simp only [eq_self_iff_true, true_iff]
      tauto
  constructor
  · intro hres
    rw [← hnone]
    by_contra hsome
    rcases Option.ne_none_iff_exists.mp hsome with ⟨st, hst⟩
    unfold stepSimplex.solveSimplexStep at hres
    rw [show ([] : List Step).getLast? = none from rfl] at hres
    dsimp only at hres
    rw [← hst] at hres
    dsimp only at hres
    simp only [List.nil_append, List.cons.injEq, and_true] at hres
    exact resolveSolutionType_ne_infeasible _ _ (congrArg Step.solutionType hres)
  · intro hfail
    have := hnone.mpr hfail
    unfold stepSimplex.solveSimplexStep
    rw [show ([] : List Step).getLast? = none from rfl]
    dsimp only
    rw [this]

/-- Witness for C6 (amended): on `probNegBasis` with basis [0] the feasibility
check fails and the step-mode solver returns the single infeasible step. -/
theorem solveSimplexStep_initial_basis_validation_witness :
    stepSimplex.solveSimplexStep probNegBasis [0] [] none = [stepSimplex.infeasibleStep] :=
  (solveSimplexStep_initial_basis_validation probNegBasis [0]).mpr (by decide)

/-! ### C4: the pivot candidate search and its minimum-ratio test -/

/-- Eligibility of a leaving row under the artificial options. -/
def eligibleA (matrix : List (List ℚ)) (r c : ℕ) : Prop :=
  artificialCanLeave (getEntry matrix r c) = true

instance (matrix : List (List ℚ)) (r c : ℕ) : Decidable (eligibleA matrix r c) := by
  unfold eligibleA
  infer_instance

/-- The ratio compared by the minimum-ratio test. -/
def ratioAt (matrix : List (List ℚ)) (rhsIndex r c : ℕ) : ℚ :=
  getEntry matrix r rhsIndex / getEntry matrix r c

/-- What the inner row scan has established after examining rows below `n`. -/
def LeavingInv (matrix : List (List ℚ)) (rhsIndex col n : ℕ) : Option (ℕ × ℚ) → Prop
  | none => ∀ r, r < n → ¬ eligibleA matrix r col
  | some (r, mr) => r < n ∧ eligibleA matrix r col ∧
      mr = ratioAt matrix rhsIndex r col ∧
      (∀ r2, r2 < n → eligibleA matrix r2 col → mr ≤ ratioAt matrix rhsIndex r2 col) ∧
      (∀ r2, r2 < r → eligibleA matrix r2 col → mr < ratioAt matrix rhsIndex r2 col)

lemma findLeavingRow_inv (matrix : List (List ℚ)) (rhsIndex col : ℕ) :
    ∀ remaining row best, LeavingInv matrix rhsIndex col row best →
      LeavingInv matrix rhsIndex col (row + remaining)
        (findLeavingRow artificialCanLeave 0 matrix rhsIndex col remaining row best) := by
  intro remaining
  induction remaining with
  | zero =>
    intro row best h
    simpa [findLeavingRow] using h
  | succ n ih =>
    intro row best h
    rw [findLeavingRow]
    have harr : row + (n + 1) = (row + 1) + n := by omega
    rw [harr]
    apply ih
    by_cases helig : artificialCanLeave (getEntry matrix row col) = true
    · rw [if_pos helig]
      cases best with
      | none =>
        dsimp only
        refine ⟨by omega, helig, rfl, ?_, ?_⟩
        · intro r2 hr2 helig2
          rcases Nat.lt_succ_iff_lt_or_eq.mp hr2 with hlt | heq
          · exact absurd helig2 (h r2 hlt)
          · subst heq
            exact le_refl _
        · intro r2 hr2 helig2
          exact absurd helig2 (h r2 hr2)
      | some best1 =>
        obtain ⟨r, mr⟩ := best1
        obtain ⟨hrn, helr, hmr, hmin, hfirst⟩ := h
        dsimp only
        by_cases hless : getEntry matrix row rhsIndex / getEntry matrix row col < mr - 0
        · rw [if_pos hless]
          rw [sub_zero] at hless
          refine ⟨by omega, helig, rfl, ?_, ?_⟩
          · intro r2 hr2 helig2
            rcases Nat.lt_succ_iff_lt_or_eq.mp hr2 with hlt | heq
            · exact le_of_lt (lt_of_lt_of_le hless (hmin r2 hlt helig2))
            · subst heq
              exact le_refl _
          · intro r2 hr2 helig2
            exact lt_of_lt_of_le hless (hmin r2 (by omega) helig2)
        · rw [if_neg hless]
          rw [sub_zero] at hless
          refine ⟨by omega, helr, hmr, ?_, hfirst⟩
          intro r2 hr2 helig2
          rcases Nat.lt_succ_iff_lt_or_eq.mp hr2 with hlt | heq
          · exact hmin r2 hlt helig2
          · subst heq
            rw [hmr]
            exact le_of_not_lt (by rw [hmr] at hless; exact hless)
    · rw [if_neg helig]
      cases best with
      | none =>
        intro r2 hr2
        rcases Nat.lt_succ_iff_lt_or_eq.mp hr2 with hlt | heq
        · exact h r2 hlt
        · subst heq
          exact fun hcontra => helig hcontra
      | some best1 =>
        obtain ⟨r, mr⟩ := best1
        obtain ⟨hrn, helr, hmr, hmin, hfirst⟩ := h
        refine ⟨by omega, helr, hmr, ?_, hfirst⟩
        intro r2 hr2 helig2
        rcases Nat.lt_succ_iff_lt_or_eq.mp hr2 with hlt | heq
        · exact hmin r2 hlt helig2
        · subst heq
          exact absurd helig2 helig

/-- The result of the full inner scan satisfies the invariant over all rows. -/
lemma findLeavingRow_full (matrix : List (List ℚ)) (rhsIndex col : ℕ) :
    LeavingInv matrix rhsIndex col matrix.length
      (findLeavingRow artificialCanLeave 0 matrix rhsIndex col matrix.length 0 none) := by
  have h := findLeavingRow_inv matrix rhsIndex col matrix.length 0 none
    (by intro r hr; omega)
  simpa using h

lemma findPivotsCols_mem (matrix : List (List ℚ)) (z : List ℚ) (rhsIndex : ℕ) :
    ∀ remaining col,
    ((findPivotsCols artificialCanLeave 0 matrix z rhsIndex remaining col).2 = true ↔
      ∃ k, k < remaining ∧ neg (z.getD (col + k) 0) = true) ∧
    (∀ r c, ((r, c) ∈ (findPivotsCols artificialCanLeave 0 matrix z rhsIndex remaining col).1 ↔
      (col ≤ c ∧ c < col + remaining ∧ neg (z.getD c 0) = true ∧
        ∃ mr, findLeavingRow artificialCanLeave 0 matrix rhsIndex c matrix.length 0 none =
          some (r, mr)))) := by
  intro remaining
  induction remaining with
  | zero =>
    intro col
    constructor
    · simp [findPivotsCols]
    · intro r c
      simp [findPivotsCols]
      omega
  | succ n ih =>
    intro col
    have ihc := ih (col + 1)
    rw [findPivotsCols]
    constructor
    · by_cases hneg : neg (z.getD col 0) = true
      · rw [if_pos hneg]
        constructor
        · intro
          exact ⟨0, by omega, by simpa using hneg⟩
        · intro
          cases hfound : findLeavingRow artificialCanLeave 0 matrix rhsIndex col
              matrix.length 0 none <;> rfl
      · rw [if_neg hneg]
        constructor
        · intro h2
          obtain ⟨k, hk, hkneg⟩ := ihc.1.mp h2
          exact ⟨k + 1, by omega,
            by rw [show col + (k + 1) = col + 1 + k by omega]; exact hkneg⟩
        · intro hex
          obtain ⟨k, hk, hkneg⟩ := hex
          apply ihc.1.mpr
          cases k with
          | zero =>
            rw [Nat.add_zero] at hkneg
            exact absurd hkneg hneg
          | succ k2 =>
            exact ⟨k2, by omega,
              by rw [show col + 1 + k2 = col + (k2 + 1) by omega]; exact hkneg⟩
    · intro r c
      by_cases hneg : neg (z.getD col 0) = true
      · rw [if_pos hneg]
        cases hfound : findLeavingRow artificialCanLeave 0 matrix rhsIndex col
            matrix.length 0 none with
        | none =>
          dsimp only
          rw [ihc.2 r c]
          constructor
          · intro hmem
            obtain ⟨h1, h2, h3, h4⟩ := hmem
            exact ⟨by omega, by omega, h3, h4⟩
          · intro hmem
            obtain ⟨h1, h2, h3, hmr⟩ := hmem
            rcases Nat.lt_or_ge col c with hlt | hge
            · exact ⟨by omega, by omega, h3, hmr⟩
            · have hcc : c = col := by omega
              subst hcc
              obtain ⟨mr, hmr2⟩ := hmr
              rw [hfound] at hmr2
              cases hmr2
        | some rr =>
          obtain ⟨r1, mr1⟩ := rr
          dsimp only
          rw [List.mem_cons, ihc.2 r c]
          constructor
          · intro hmem
            rcases hmem with heq | hrest
            · cases heq
              exact ⟨le_refl _, by omega, hneg, ⟨mr1, hfound⟩⟩
            · obtain ⟨h1, h2, h3, h4⟩ := hrest
              exact ⟨by omega, by omega, h3, h4⟩
          · intro hmem
            obtain ⟨h1, h2, h3, hmr⟩ := hmem
            rcases Nat.lt_or_ge col c with hlt | hge
            · right
              exact ⟨by omega, by omega, h3, hmr⟩
            · have hcc : c = col := by omega
              subst hcc
              obtain ⟨mr, hmr2⟩ := hmr
              rw [hfound] at hmr2
              left
              cases hmr2
              rfl
      · rw [if_neg hneg]
        rw [ihc.2 r c]
        constructor
        · intro hmem
          obtain ⟨h1, h2, h3, h4⟩ := hmem
          exact ⟨by omega, by omega, h3, h4⟩
        · intro hmem
          obtain ⟨h1, h2, h3, hmr⟩ := hmem
          rcases Nat.lt_or_ge col c with hlt | hge
          · exact ⟨by omega, by omega, h3, hmr⟩
          · have hcc : c = col := by omega
            subst hcc
            exact absurd h3 hneg

lemma eligibleA_iff (m : List (List ℚ)) (r c : ℕ) :
    eligibleA m r c ↔ getEntry m r c ≠ 0 ∧ -EPS ≤ getEntry m r c := by
  unfold eligibleA artificialCanLeave neg
  constructor
  · intro h
    simp only [Bool.and_eq_true, Bool.not_eq_true', decide_eq_false_iff_not,
      decide_eq_true_eq, not_lt] at h
    exact ⟨h.2, h.1⟩
  · intro h
    simp only [Bool.and_eq_true, Bool.not_eq_true', decide_eq_false_iff_not,
      decide_eq_true_eq, not_lt]
    exact ⟨h.2, h.1⟩

lemma neg_iff (x : ℚ) : neg x = true ↔ x < -EPS := by
  unfold neg
  simp

theorem findPotentialPivots_artificial_ratio_test (matrix : List (List ℚ)) (z : List ℚ) :
    ((findPotentialPivots matrix z { canLeaveBasis := artificialCanLeave }).2 = true ↔
      ∃ c, c < z.length - 1 ∧ z.getD c 0 < -EPS) ∧
    (∀ r c, (r, c) ∈ (findPotentialPivots matrix z { canLeaveBasis := artificialCanLeave }).1 →
      c < z.length - 1 ∧ z.getD c 0 < -EPS ∧ r < matrix.length ∧
      getEntry matrix r c ≠ 0 ∧ -EPS ≤ getEntry matrix r c ∧
      (∀ r2, r2 < matrix.length → getEntry matrix r2 c ≠ 0 → -EPS ≤ getEntry matrix r2 c →
        ratioAt matrix ((matrix.headD []).length - 1) r c ≤
          ratioAt matrix ((matrix.headD []).length - 1) r2 c) ∧
      (∀ r2, r2 < r → getEntry matrix r2 c ≠ 0 → -EPS ≤ getEntry matrix r2 c →
        ratioAt matrix ((matrix.headD []).length - 1) r c <
          ratioAt matrix ((matrix.headD []).length - 1) r2 c)) ∧
    (∀ c, c < z.length - 1 → z.getD c 0 < -EPS →
      (∃ r, r < matrix.length ∧ getEntry matrix r c ≠ 0 ∧ -EPS ≤ getEntry matrix r c) →
      ∃ r, (r, c) ∈ (findPotentialPivots matrix z { canLeaveBasis := artificialCanLeave }).1 ∧
        ∀ r2, (r2, c) ∈ (findPotentialPivots matrix z
          { canLeaveBasis := artificialCanLeave }).1 → r2 = r) := by
  have hmain := findPivotsCols_mem matrix z ((matrix.headD []).length - 1) (z.length - 1) 0
  have hres : findPotentialPivots matrix z { canLeaveBasis := artificialCanLeave } =
      findPivotsCols artificialCanLeave 0 matrix z ((matrix.headD []).length - 1)
        (z.length - 1) 0 := rfl
  refine ⟨?_, ?_, ?_⟩
  · rw [hres, hmain.1]
    constructor
    · intro hk
      obtain ⟨k, hk1, hk2⟩ := hk
      exact ⟨k, hk1, by rw [← neg_iff]; simpa using hk2⟩
    · intro hc
      obtain ⟨c, hc1, hc2⟩ := hc
      exact ⟨c, hc1, by simpa using (neg_iff _).mpr hc2⟩
  · intro r c hmem
    rw [hres] at hmem
    obtain ⟨-, h2, h3, mr, hmr⟩ := (hmain.2 r c).mp hmem
    have hinv := findLeavingRow_full matrix ((matrix.headD []).length - 1) c
    rw [hmr] at hinv
    obtain ⟨hrlen, helig, hmreq, hmin, hfirst⟩ := hinv
    obtain ⟨hne, hge⟩ := (eligibleA_iff matrix r c).mp helig
    refine ⟨by omega, (neg_iff _).mp h3, hrlen, hne, hge, ?_, ?_⟩
    · intro r2 hr2 hne2 hge2
      have := hmin r2 hr2 ((eligibleA_iff matrix r2 c).mpr ⟨hne2, hge2⟩)
      rw [hmreq] at this
      exact this
    · intro r2 hr2 hne2 hge2
      have := hfirst r2 hr2 ((eligibleA_iff matrix r2 c).mpr ⟨hne2, hge2⟩)
      rw [hmreq] at this
      exact this
  · intro c hc hneg hex
    obtain ⟨r0, hr0, hne0, hge0⟩ := hex
    have hinv := findLeavingRow_full matrix ((matrix.headD []).length - 1) c
    cases hfound : findLeavingRow artificialCanLeave 0 matrix
        ((matrix.headD []).length - 1) c matrix.length 0 none with
    | none =>
      rw [hfound] at hinv
      exact absurd ((eligibleA_iff matrix r0 c).mpr ⟨hne0, hge0⟩) (hinv r0 hr0)
    | some rr =>
      obtain ⟨r1, mr1⟩ := rr
      refine ⟨r1, ?_, ?_⟩
      · rw [hres, hmain.2 r1 c]
        exact ⟨by omega, by omega, (neg_iff _).mpr hneg, ⟨mr1, hfound⟩⟩
      · intro r2 hmem2
        rw [hres] at hmem2
        obtain ⟨-, -, -, mr2, hmr2⟩ := (hmain.2 r2 c).mp hmem2
        rw [hfound] at hmr2
        cases hmr2
        rfl

theorem findPotentialPivots_accepts_tiny_coefficient :
    (findPotentialPivots [[-(1:ℚ)/100000000000, 1], [1, 1]] [-1, 0]
      { canLeaveBasis := artificialCanLeave }).1 = [(0, 0)] ∧
    ¬ (getEntry [[-(1:ℚ)/100000000000, 1], [1, 1]] 0 0 > EPS) ∧
    getEntry [[-(1:ℚ)/100000000000, 1], [1, 1]] 1 0 > EPS ∧
    ((-1 : ℚ) < -EPS) := by
  decide

/-- Witness for C4 (amended) on the tableau [[2, 4], [1, 1]] with z = [-1, 0]:
row 1 is the minimum-ratio leaving row for the single negative column. -/
theorem findPotentialPivots_artificial_ratio_test_witness :
    (1, 0) ∈ (findPotentialPivots [[2, 4], [1, 1]] [-1, 0]
      { canLeaveBasis := artificialCanLeave }).1 ∧
    ratioAt [[(2 : ℚ), 4], [1, 1]] (([[(2 : ℚ), 4], [1, 1]].headD []).length - 1) 1 0 ≤
      ratioAt [[(2 : ℚ), 4], [1, 1]] (([[(2 : ℚ), 4], [1, 1]].headD []).length - 1) 0 0 :=
  ⟨by decide,
   ((findPotentialPivots_artificial_ratio_test [[2, 4], [1, 1]] [-1, 0]).2.1 1 0
      (by decide)).2.2.2.2.2.1 0 (by decide) (by decide) (by decide)⟩

end Simplex


namespace Simplex

lemma ne_nil_of_getLast? {α : Type} {l : List α} {a : α} (h : l.getLast? = some a) :
    l ≠ [] := by
  intro hnil
  rw [hnil] at h
  cases h

lemma getLast?_set_last {α : Type} (l : List α) (a : α) (h : l ≠ []) :
    (l.set (l.length - 1) a).getLast? = some a := by
  have hlen : 0 < l.length := List.length_pos.mpr h
  rw [List.getLast?_eq_getElem?]
  rw [List.length_set]
  rw [List.getElem?_set_eq (by omega)]

lemma solveArtificialStep_noop (pb : ProblemData) (steps : List Step) (lastStep : Step)
    (idx : Option ℕ) (hlast : steps.getLast? = some lastStep)
    (hcond : lastStep.potentialPivots = [] ∨ lastStep.solutionType ≠ .notSolved ∨
             lastStep.potentialPivots.length ≤ idx.getD 0) :
    artificial.solveArtificialStep pb steps idx = steps := by
  unfold artificial.solveArtificialStep
  rw [hlast]
  dsimp only
  rcases hcond with h | h | h
  · rw [if_pos (Or.inl (by rw [h]; rfl))]
  · rw [if_pos (Or.inr h)]
  · by_cases hguard : lastStep.potentialPivots.length = 0 ∨
        lastStep.solutionType ≠ SolutionType.notSolved
    · rw [if_pos hguard]
    · rw [if_neg hguard, List.get?_eq_none.mpr h]

lemma appendNextSnapshotA_append (pb : ProblemData) (steps : List Step) (st : SolverState) :
    artificial.appendNextSnapshot pb steps st =
      steps ++ artificial.appendNextSnapshot pb [] st := by
  unfold artificial.appendNextSnapshot
  dsimp only
  by_cases hcond : (snapshotOf st).solutionType ≠ SolutionType.notSolved ∧
      st.artificialPhase = true ∧ isAllZero st.z = true
  · rw [if_pos hcond, if_pos hcond]
    simp
  · rw [if_neg hcond, if_neg hcond]
    simp

lemma solveArtificialStep_advances (pb : ProblemData) (steps : List Step) (lastStep : Step)
    (idx : Option ℕ) (pv : ℕ × ℕ)
    (hlast : steps.getLast? = some lastStep)
    (htype : lastStep.solutionType = .notSolved)
    (hget : lastStep.potentialPivots.get? (idx.getD 0) = some pv) :
    artificial.solveArtificialStep pb steps idx =
      steps.set (steps.length - 1)
          { lastStep with selectedPivotIndex := some (idx.getD 0) } ++
        artificial.appendNextSnapshot pb []
          (artificial.applyPivotToState (artificial.restoreState pb lastStep) pv) := by
  have hlen0 : lastStep.potentialPivots.length ≠ 0 := by
    intro h0
    rw [List.get?_eq_none.mpr (by omega)] at hget
    cases hget
  unfold artificial.solveArtificialStep
  rw [hlast]
  dsimp only
  rw [if_neg (by push_neg; exact ⟨hlen0, by simp [htype]⟩), hget]
  dsimp only
  exact appendNextSnapshotA_append pb _ _

lemma advance_ignores_last_selection (pb : ProblemData) (steps : List Step)
    (lastStep : Step) (v : Option ℕ) (idx : Option ℕ) (pv : ℕ × ℕ)
    (hlast : steps.getLast? = some lastStep)
    (htype : lastStep.solutionType = .notSolved)
    (hget : lastStep.potentialPivots.get? (idx.getD 0) = some pv) :
    artificial.solveArtificialStep pb
      (steps.set (steps.length - 1) { lastStep with selectedPivotIndex := v }) idx =
    artificial.solveArtificialStep pb steps idx := by
  have hne : steps ≠ [] := ne_nil_of_getLast? hlast
  rw [solveArtificialStep_advances pb steps lastStep idx pv hlast htype hget]
  rw [solveArtificialStep_advances pb
    (steps.set (steps.length - 1) { lastStep with selectedPivotIndex := v })
    { lastStep with selectedPivotIndex := v } idx pv
    (getLast?_set_last steps _ hne) htype hget]
  rw [List.length_set, List.set_set]
  rfl

end Simplex

namespace Simplex

/-- Dimensional soundness of a solver state: the z-row and the leading matrix
row are no wider than the non-basic columns plus the RHS. -/
def WfState (st : SolverState) : Prop :=
  st.z.length ≤ st.colsVariables.length + 1 ∧
  (st.matrix.headD []).length ≤ st.colsVariables.length + 1

/-- A step is well-formed when its candidates and classification agree with
the pivot search on its own tableau and its dimensions are sound. -/
def WfStep (s : Step) : Prop :=
  s.potentialPivots = (findPotentialPivotsA s.matrix s.z).1 ∧
  s.solutionType = resolveSolutionType (findPotentialPivotsA s.matrix s.z).2
    (findPotentialPivotsA s.matrix s.z).1 ∧
  s.z.length ≤ s.colsVariables.length + 1 ∧
  (s.matrix.headD []).length ≤ s.colsVariables.length + 1

lemma buildArtificialTargetFunction_length (m : List (List ℚ)) :
    (artificial.buildArtificialTargetFunction m).length = (m.headD []).length := by
  simp [artificial.buildArtificialTargetFunction]

lemma createInitialState_wfState (pb : ProblemData) :
    WfState (artificial.createInitialState pb) := by
  have hcols : (artificial.createInitialState pb).colsVariables.length = pb.numVariables := by
    show ((List.range pb.numVariables).map _).length = _
    simp
  have hhead : ((artificial.createInitialState pb).matrix.headD []).length ≤
      pb.numVariables + 1 := by
    show ((normalizeRhs (buildMatrix pb)).headD []).length ≤ _
    rw [headD_eq_getD_zero, normalizeRhs_row_length]
    by_cases hc : 0 < pb.numConstraints
    · rw [buildMatrix_row_length pb 0 hc]
    · have : buildMatrix pb = [] := by
        unfold buildMatrix
        have : pb.numConstraints = 0 := by omega
        rw [this]
        simp
      rw [this]
      simp
  constructor
  · show (artificial.buildArtificialTargetFunction (normalizeRhs (buildMatrix pb))).length ≤ _
    rw [buildArtificialTargetFunction_length, hcols]
    exact hhead
  · rw [hcols]
    exact hhead

lemma applyPivot_wfState (st : SolverState) (r c : ℕ)
    (hc : c < st.colsVariables.length) (h : WfState st) :
    WfState (artificial.applyPivotToState st (r, c)) := by
  obtain ⟨hz, hm⟩ := h
  have hflen : ((performPivot (st.matrix ++ [st.z]) r c).map
      (fun row => row.eraseIdx c)).length = st.matrix.length + 1 := by
    rw [List.length_map, performPivot_length]
    simp
  have hcols2 : (artificial.applyPivotToState st (r, c)).colsVariables.length =
      st.colsVariables.length - 1 := by
    show (st.colsVariables.eraseIdx c).length = _
    exact length_eraseIdx_lt _ _ hc
  constructor
  · show (((performPivot (st.matrix ++ [st.z]) r c).map
      (fun row => row.eraseIdx c)).getLast?.getD []).length ≤ _
    rw [getLast?_getD_of_ne_nil _ _ (by
      intro hnil
      rw [hnil] at hflen
      simp at hflen)]
    rw [hflen]
    simp only [Nat.add_sub_cancel]
    rw [getD_map _ _ _ _ [] (by rw [performPivot_length]; simp)]
    rw [List.length_eraseIdx]
    rw [performPivot_row_length _ _ _ _ (by simp)]
    have hzr : (st.matrix ++ [st.z]).getD st.matrix.length [] = st.z := by
      rw [getD_of_lt _ _ _ (by simp)]
      simp
    rw [hzr, hcols2]
    split <;> omega
  · show (((performPivot (st.matrix ++ [st.z]) r c).map
      (fun row => row.eraseIdx c)).dropLast.headD []).length ≤ _
    rw [headD_eq_getD_zero, hcols2]
    by_cases hm0 : st.matrix.length = 0
    · rw [List.getD_eq_default _ _ (by rw [List.length_dropLast, hflen]; omega)]
      simp
    · rw [dropLast_getD _ _ _ (by omega)]
      rw [getD_map _ _ _ _ [] (by rw [performPivot_length]; simp)]
      rw [List.length_eraseIdx]
      rw [performPivot_row_length _ _ _ _ (by simp)]
      rw [getD_append_left _ _ _ _ (by omega)]
      rw [← headD_eq_getD_zero]
      split <;> omega

lemma resolveSolutionType_notSolved_iff (b : Bool) (l : List (ℕ × ℕ)) :
    resolveSolutionType b l = .notSolved ↔ (b = true ∧ l ≠ []) := by
  unfold resolveSolutionType
  rcases b with _ | _
  · simp
  · rcases l with _ | ⟨p, l2⟩ <;> simp

lemma mem_of_getLast? {α : Type} {l : List α} {a : α} (h : l.getLast? = some a) :
    a ∈ l := by
  rw [List.getLast?_eq_getElem?] at h
  exact List.getElem?_mem h

end Simplex

namespace Simplex

/-- Advancing a well-formed history whose last step is `not-solved` with the
default pivot: the history grows, and the new final snapshot is again
well-formed with exactly one fewer non-basic column. -/
lemma advance_from_notSolved (pb : ProblemData) (steps : List Step) (lastStep : Step)
    (hlast : steps.getLast? = some lastStep)
    (hwf : WfStep lastStep)
    (htype : lastStep.solutionType = .notSolved) :
    ∃ newLast,
      (artificial.solveArtificialStep pb steps (some 0)).getLast? = some newLast ∧
      WfStep newLast ∧
      newLast.colsVariables.length + 1 = lastStep.colsVariables.length ∧
      steps.length < (artificial.solveArtificialStep pb steps (some 0)).length := by
  obtain ⟨hpiv, hsol, hzlen, hmlen⟩ := hwf
  have hne : (findPotentialPivotsA lastStep.matrix lastStep.z).1 ≠ [] := by
    have := htype
    rw [hsol] at this
    exact ((resolveSolutionType_notSolved_iff _ _).mp this).2
  obtain ⟨pv, rest, hcons⟩ : ∃ pv rest,
      (findPotentialPivotsA lastStep.matrix lastStep.z).1 = pv :: rest := by
    cases hl : (findPotentialPivotsA lastStep.matrix lastStep.z).1 with
    | nil => exact absurd hl hne
    | cons a b => exact ⟨a, b, rfl⟩
  have hget : lastStep.potentialPivots.get? ((some 0).getD 0) = some pv := by
    rw [hpiv, hcons]
    rfl
  obtain ⟨r, c⟩ := pv
  have hmem : (r, c) ∈ (findPotentialPivotsA lastStep.matrix lastStep.z).1 := by
    rw [hcons]
    exact List.mem_cons_self _ _
  have hcz : c < lastStep.z.length - 1 := by
    have hmem2 := (findPivotsCols_mem lastStep.matrix lastStep.z
      ((lastStep.matrix.headD []).length - 1) (lastStep.z.length - 1) 0).2 r c
    have : (r, c) ∈ (findPivotsCols artificialCanLeave 0 lastStep.matrix lastStep.z
        ((lastStep.matrix.headD []).length - 1) (lastStep.z.length - 1) 0).1 := hmem
    obtain ⟨-, h2, -, -⟩ := hmem2.mp this
    omega
  have hcc : c < lastStep.colsVariables.length := by omega
  have hrw := solveArtificialStep_advances pb steps lastStep (some 0) (r, c) hlast htype hget
  obtain ⟨tail, htail, htne, -, hall, -⟩ := appendNextSnapshotA_shape pb []
    (artificial.applyPivotToState (artificial.restoreState pb lastStep) (r, c))
  rw [List.nil_append] at htail
  have hstate : WfState (artificial.applyPivotToState
      (artificial.restoreState pb lastStep) (r, c)) :=
    applyPivot_wfState _ r c hcc ⟨hzlen, hmlen⟩
  cases hlastT : tail.getLast? with
  | none =>
    exact absurd (List.getLast?_eq_none_iff.mp hlastT) htne
  | some newLast =>
    have hmemT : newLast ∈ tail := mem_of_getLast? hlastT
    obtain ⟨hmx, hcv, -, -, hpp, hst, hzc⟩ := hall newLast hmemT
    refine ⟨newLast, ?_, ?_, ?_, ?_⟩
    · rw [hrw, htail, List.getLast?_append_of_ne_nil _ htne]
      exact hlastT
    · refine ⟨hpp, hst, ?_, ?_⟩
      · rcases hzc with hzc | hzc
        · rw [hzc, hcv]
          exact hstate.1
        · rw [hzc, hcv, ← hmx]
          rw [hmx]
          exact hstate.2
      · rw [hmx, hcv]
        exact hstate.2
    · rw [hcv]
      show (lastStep.colsVariables.eraseIdx c).length + 1 = _
      rw [length_eraseIdx_lt _ _ hcc]
      omega
    · rw [hrw, htail, List.length_append, List.length_set]
      have : 0 < tail.length := List.length_pos.mpr htne
      omega

end Simplex

namespace Simplex

/-- The auto-solve loop stabilises: once the fuel exceeds the non-basic
column count of the (well-formed) last step, more fuel cannot change the
result, and the result ends in a terminal step. -/
lemma solveArtificialLoop_stable (pb : ProblemData) :
    ∀ B steps lastStep, steps.getLast? = some lastStep → WfStep lastStep →
      lastStep.colsVariables.length < B →
      ∀ f1 f2, B ≤ f1 → B ≤ f2 →
        artificial.solveArtificialLoop pb f1 steps =
          artificial.solveArtificialLoop pb f2 steps ∧
        ∃ t, (artificial.solveArtificialLoop pb f1 steps).getLast? = some t ∧
          t.solutionType ≠ .notSolved := by
  intro B
  induction B with
  | zero =>
    intro steps lastStep hlast hwf hB
    omega
  | succ B ih =>
    intro steps lastStep hlast hwf hB f1 f2 hf1 hf2
    cases f1 with
    | zero => omega
    | succ a =>
      cases f2 with
      | zero => omega
      | succ b =>
        rw [artificial.solveArtificialLoop, artificial.solveArtificialLoop]
        by_cases htype : lastStep.solutionType = SolutionType.notSolved
        · obtain ⟨newLast, hnewLast, hnewWf, hnewCols, hgrow⟩ :=
            advance_from_notSolved pb steps lastStep hlast hwf htype
          rw [if_neg (by omega), if_neg (by omega), hnewLast]
          dsimp only
          by_cases hterm : newLast.solutionType ≠ SolutionType.notSolved
          · rw [if_pos hterm, if_pos hterm]
            exact ⟨rfl, newLast, hnewLast, hterm⟩
          · rw [if_neg hterm, if_neg hterm]
            exact ih (artificial.solveArtificialStep pb steps (some 0)) newLast
              hnewLast hnewWf (by omega) a b (by omega) (by omega)
        · have hnoop : artificial.solveArtificialStep pb steps (some 0) = steps :=
            solveArtificialStep_noop pb steps lastStep (some 0) hlast
              (Or.inr (Or.inl htype))
          rw [hnoop, if_pos rfl, if_pos rfl]
          exact ⟨rfl, lastStep, hlast, htype⟩

/-- The artificial-basis auto-solve reaches its fixed point: with any fuel of
at least numVariables + 2 iterations the `while (true)` loop has already
stabilised (every pivot deletes one non-basic column, so the iteration count
is structurally bounded), and the run ends in a terminal step. -/
lemma solveArtificial_fixed_point (pb : ProblemData) (f1 f2 : ℕ)
    (h1 : pb.numVariables + 2 ≤ f1) (h2 : pb.numVariables + 2 ≤ f2) :
    artificial.solveArtificial pb f1 = artificial.solveArtificial pb f2 ∧
    ∃ t, (artificial.solveArtificial pb f1).steps.getLast? = some t ∧
      t.solutionType ≠ .notSolved := by
  have hloop : artificial.solveArtificialLoop pb f1 [] =
      artificial.solveArtificialLoop pb f2 [] ∧
      ∃ t, (artificial.solveArtificialLoop pb f1 []).getLast? = some t ∧
        t.solutionType ≠ .notSolved := by
    cases f1 with
    | zero => omega
    | succ a =>
      cases f2 with
      | zero => omega
      | succ b =>
        rw [artificial.solveArtificialLoop, artificial.solveArtificialLoop]
        have hfirst : artificial.solveArtificialStep pb [] (some 0) =
            artificial.appendNextSnapshot pb [] (artificial.createInitialState pb) := rfl
        obtain ⟨tail0, htail0, htne0, -, hall0, -⟩ :=
          appendNextSnapshotA_shape pb [] (artificial.createInitialState pb)
        rw [List.nil_append] at htail0
        have hlen0 : 0 < tail0.length := List.length_pos.mpr htne0
        cases hlastT : tail0.getLast? with
        | none => exact absurd (List.getLast?_eq_none_iff.mp hlastT) htne0
        | some t0 =>
          have hmemT : t0 ∈ tail0 := mem_of_getLast? hlastT
          obtain ⟨hmx, hcv, -, -, hpp, hst, hzc⟩ := hall0 t0 hmemT
          have hinitWf := createInitialState_wfState pb
          have ht0Wf : WfStep t0 := by
            refine ⟨hpp, hst, ?_, ?_⟩
            · rcases hzc with hzc | hzc
              · rw [hzc, hcv]
                exact hinitWf.1
              · rw [hzc, hcv, ← hmx, hmx]
                exact hinitWf.2
            · rw [hmx, hcv]
              exact hinitWf.2
          have hcols0 : t0.colsVariables.length = pb.numVariables := by
            rw [hcv]
            show ((List.range pb.numVariables).map _).length = _
            simp
          rw [hfirst, htail0]
          rw [if_neg (by simp only [List.length_nil]; omega),
            if_neg (by simp only [List.length_nil]; omega), hlastT]
          dsimp only
          by_cases hterm : t0.solutionType ≠ SolutionType.notSolved
          · rw [if_pos hterm, if_pos hterm]
            exact ⟨rfl, t0, hlastT, hterm⟩
          · rw [if_neg hterm, if_neg hterm]
            exact solveArtificialLoop_stable pb (t0.colsVariables.length + 1) tail0 t0
              hlastT ht0Wf (by omega) a b (by omega) (by omega)
  constructor
  · unfold artificial.solveArtificial
    rw [hloop.1]
  · obtain ⟨-, t, ht, htype⟩ := hloop
    exact ⟨t, ht, htype⟩


end Simplex

namespace Simplex

/-- Default step used when a history position is read out of range. -/
def defStep : Step where
  matrix := []
  z := []
  potentialPivots := []
  colsVariables := []
  rowVariables := []
  solutionType := SolutionType.optimal

/-- Step histories obtainable from the artificial engine by starting from the
empty list and repeatedly calling the advance operation with arbitrary pivot
choices. -/
inductive ProducedA (pb : ProblemData) : List Step → Prop
  | nil : ProducedA pb []
  | step (steps : List Step) (idx : Option ℕ) (h : ProducedA pb steps) :
      ProducedA pb (artificial.solveArtificialStep pb steps idx)

/-- Replay driver: starting from a prefix of the reference history `H`, keep
advancing, feeding at each call the pivot index recorded in `H` at the
position of the current last step, until the history is as long as `H`. -/
def replayA (pb : ProblemData) (H : List Step) : ℕ → List Step → List Step
  | 0, cur => cur
  | fuel + 1, cur =>
    if H.length ≤ cur.length then cur
    else
      replayA pb H fuel
        (artificial.solveArtificialStep pb cur
          ((H.getD (cur.length - 1) defStep).selectedPivotIndex))

lemma set_get?_self {α : Type} (l : List α) (j : ℕ) (a : α)
    (h : l.get? j = some a) : l.set j a = l := by
  apply List.ext_getElem?
  intro i
  by_cases hi : i = j
  · subst hi
    rw [List.getElem?_set_eq (List.get?_eq_some.mp h).1, ← List.get?_eq_getElem?, h]
  · rw [List.getElem?_set_ne (by omega)]

lemma take_set_of_le {α : Type} (l : List α) (j m : ℕ) (a : α) (h : m ≤ j) :
    (l.set j a).take m = l.take m := by
  apply List.ext_getElem?
  intro i
  rw [List.getElem?_take, List.getElem?_take]
  by_cases hi : i < m
  · rw [if_pos hi, if_pos hi, List.getElem?_set_ne (by omega)]
  · rw [if_neg hi, if_neg hi]

lemma getLast?_take {α : Type} (l : List α) (n : ℕ) (h0 : 0 < n) (h : n ≤ l.length) :
    (l.take n).getLast? = l.get? (n - 1) := by
  have h1 : min n l.length = n := by omega
  rw [List.getLast?_eq_getElem?, List.length_take, h1, List.getElem?_take,
    if_pos (by omega), List.get?_eq_getElem?]

lemma get?_dropLast {α : Type} (l : List α) (k : ℕ) (h : k < l.length - 1) :
    l.dropLast.get? k = l.get? k := by
  rw [List.get?_eq_getElem?, List.get?_eq_getElem?, List.getElem?_dropLast, if_pos h]

lemma mem_dropLast_of_get? {α : Type} (l : List α) (k : ℕ) (a : α)
    (h : l.get? k = some a) (hk : k < l.length - 1) : a ∈ l.dropLast :=
  List.getElem?_mem (n := k) (by rw [← List.get?_eq_getElem?, get?_dropLast l k hk, h])

lemma solveArtificialStep_idx_norm (pb : ProblemData) (steps : List Step)
    (idx : Option ℕ) :
    artificial.solveArtificialStep pb steps (some (idx.getD 0)) =
      artificial.solveArtificialStep pb steps idx := by
  cases idx <;> rfl

end Simplex

namespace Simplex

/-- Every interior not-solved step of a produced artificial history records an
in-range pivot index, and advancing the prefix ending at that step with the
recorded index rebuilds the subsequent snapshots of the history exactly,
except that the new final snapshot carries no recorded pivot selection yet. -/
lemma produced_advance_prefix (pb : ProblemData) (H : List Step)
    (hH : ProducedA pb H) :
    ∀ m s, 0 < m → m < H.length → H.get? (m - 1) = some s →
      s.solutionType = SolutionType.notSolved →
      ∃ i pv m' t, s.selectedPivotIndex = some i ∧
        s.potentialPivots.get? i = some pv ∧
        m < m' ∧ m' ≤ H.length ∧ H.get? (m' - 1) = some t ∧
        (m' < H.length → t.solutionType = SolutionType.notSolved) ∧
        artificial.solveArtificialStep pb (H.take m) (some i) =
          (H.take m').set (m' - 1) { t with selectedPivotIndex := none } := by
  induction hH with
  | nil =>
    intro m s hm hmlt hget hns
    exact absurd hmlt (by simp)
  | step G idx hG ih =>
    cases hGlast : G.getLast? with
    | none =>
      have hGnil : G = [] := List.getLast?_eq_none_iff.mp hGlast
      subst hGnil
      intro m s hm hmlt hget hns
      obtain ⟨tail, heq, htne, -, hall, hdl⟩ :=
        appendNextSnapshotA_shape pb [] (artificial.createInitialState pb)
      rw [List.nil_append] at heq
      have hH0 : artificial.solveArtificialStep pb [] idx = tail := heq
      rw [hH0] at hmlt hget
      exact absurd hns (hdl s (mem_dropLast_of_get? tail (m - 1) s hget (by omega)))
    | some g =>
      have hGne : G ≠ [] := ne_nil_of_getLast? hGlast
      have hGpos : 0 < G.length := List.length_pos.mpr hGne
      by_cases hguard : g.potentialPivots.length = 0 ∨
          g.solutionType ≠ SolutionType.notSolved
      · have hnoop : artificial.solveArtificialStep pb G idx = G := by
          rcases hguard with h | h
          · exact solveArtificialStep_noop pb G g idx hGlast
              (Or.inl (List.length_eq_zero.mp h))
          · exact solveArtificialStep_noop pb G g idx hGlast (Or.inr (Or.inl h))
        rw [hnoop]
        exact ih
      · push_neg at hguard
        obtain ⟨hplen, hgns⟩ := hguard
        cases hpv : g.potentialPivots.get? (idx.getD 0) with
        | none =>
          have hnoop : artificial.solveArtificialStep pb G idx = G :=
            solveArtificialStep_noop pb G g idx hGlast
              (Or.inr (Or.inr (List.get?_eq_none.mp hpv)))
          rw [hnoop]
          exact ih
        | some pv =>
          have hdecomp := solveArtificialStep_advances pb G g idx pv hGlast hgns hpv
          obtain ⟨tail, htaileq, htne, -, hall, hdl⟩ :=
            appendNextSnapshotA_shape pb []
              (artificial.applyPivotToState (artificial.restoreState pb g) pv)
          rw [List.nil_append] at htaileq
          rw [htaileq] at hdecomp
          have htpos : 0 < tail.length := List.length_pos.mpr htne
          set gA : Step := { g with selectedPivotIndex := some (idx.getD 0) }
            with hgAdef
          set A : List Step := G.set (G.length - 1) gA with hAdef
          have hlenA : A.length = G.length := by rw [hAdef, List.length_set]
          have hgetgA : A.get? (G.length - 1) = some gA := by
            rw [hAdef, List.get?_eq_getElem?, List.getElem?_set_eq (by omega)]
          have hgetGg : G.get? (G.length - 1) = some g := by
            rw [List.get?_eq_getElem?, ← List.getLast?_eq_getElem? G, hGlast]
          intro m s hm hmlt hget hns
          rw [hdecomp] at hmlt hget ⊢
          rw [List.length_append, hlenA] at hmlt
          rcases Nat.lt_trichotomy m G.length with hmn | hmn | hmn
          · -- cut strictly inside the untouched part of the older history
            have htakem : (A ++ tail).take m = G.take m := by
              rw [List.take_append_of_le_length (by omega), hAdef,
                take_set_of_le _ _ _ _ (by omega)]
            have hgetm : (A ++ tail).get? (m - 1) = G.get? (m - 1) := by
              rw [List.get?_eq_getElem?,
                List.getElem?_append_left (by omega : m - 1 < A.length), hAdef,
                List.getElem?_set_ne (by omega), List.get?_eq_getElem?]
            rw [hgetm] at hget
            obtain ⟨i, pv2, m', t, hspi, hpv2, hmm', hm'le, hgt, hterm, heqa⟩ :=
              ih m s hm hmn hget hns
            rcases Nat.lt_or_ge m' G.length with hm'n | hm'n
            · -- the rebuilt segment also stays inside the older history
              have htakem' : (A ++ tail).take m' = G.take m' := by
                rw [List.take_append_of_le_length (by omega), hAdef,
                  take_set_of_le _ _ _ _ (by omega)]
              have hgetm' : (A ++ tail).get? (m' - 1) = G.get? (m' - 1) := by
                rw [List.get?_eq_getElem?,
                  List.getElem?_append_left (by omega : m' - 1 < A.length), hAdef,
                  List.getElem?_set_ne (by omega), List.get?_eq_getElem?]
              refine ⟨i, pv2, m', t, hspi, hpv2, hmm', by
                rw [List.length_append, hlenA]; omega, ?_, ?_, ?_⟩
              · rw [hgetm']; exact hgt
              · exact fun _ => hterm hm'n
              · rw [htakem, htakem']; exact heqa
            · -- the rebuilt segment ends exactly at the older history's last step
              have hm'eq : m' = G.length := by omega
              subst hm'eq
              have ht : t = g := by
                rw [hgetGg] at hgt
                exact (Option.some.inj hgt).symm
              subst ht
              refine ⟨i, pv2, G.length, gA, hspi, hpv2, hmm', by
                rw [List.length_append, hlenA]; omega, ?_, ?_, ?_⟩
              · rw [List.get?_eq_getElem?,
                  List.getElem?_append_left (by omega : G.length - 1 < A.length),
                  ← List.get?_eq_getElem?]
                exact hgetgA
              · intro _
                rw [hgAdef]
                exact hgns
              · rw [htakem]
                rw [List.take_append_of_le_length (by omega),
                  (by rw [hlenA] : A.take A.length = A.take G.length).symm,
                  List.take_length A]
                have hrhs : A.set (G.length - 1)
                    { gA with selectedPivotIndex := none } =
                    (G.take G.length).set (G.length - 1)
                      { t with selectedPivotIndex := none } := by
                  rw [List.take_length G, hAdef, List.set_set, hgAdef]
                rw [hrhs]
                exact heqa
          · -- cut exactly at the older history's last step
            subst hmn
            have hs : s = gA := by
              rw [List.get?_eq_getElem?,
                List.getElem?_append_left (by omega : G.length - 1 < A.length),
                ← List.get?_eq_getElem?, hgetgA] at hget
              exact (Option.some.inj hget).symm
            subst hs
            cases htl : tail.getLast? with
            | none => exact absurd (List.getLast?_eq_none_iff.mp htl) htne
            | some t =>
              have htmem : t ∈ tail := mem_of_getLast? htl
              have htspi : t.selectedPivotIndex = none := (hall t htmem).2.2.2.1
              have hgetlast : (A ++ tail).get? ((A ++ tail).length - 1) = some t := by
                rw [List.get?_eq_getElem?, ← List.getLast?_eq_getElem?,
                  List.getLast?_append_of_ne_nil A htne, htl]
              refine ⟨idx.getD 0, pv, (A ++ tail).length, t, by rw [hgAdef], by
                rw [hgAdef]; exact hpv, by
                rw [List.length_append, hlenA]; omega, le_refl _, hgetlast,
                fun hc => absurd hc (lt_irrefl _), ?_⟩
              have htake : (A ++ tail).take G.length = A := by
                rw [← hlenA]
                exact List.take_left A tail
              rw [htake, List.take_length (A ++ tail)]
              have hclear : ({ t with selectedPivotIndex := none } : Step) = t := by
                rw [← htspi]
              rw [hclear, set_get?_self (A ++ tail) _ t hgetlast]
              rw [hAdef, hgAdef]
              rw [advance_ignores_last_selection pb G g (some (idx.getD 0))
                (some (idx.getD 0)) pv hGlast hgns hpv,
                solveArtificialStep_idx_norm pb G idx, hdecomp]
          · -- positions beyond the older history are freshly appended and,
            -- except for the final one, terminal
            have hgets : (A ++ tail).get? (m - 1) = tail.get? (m - 1 - A.length) := by
              rw [List.get?_eq_getElem?, List.getElem?_append_right (by omega),
                List.get?_eq_getElem?]
            rw [hgets, hlenA] at hget
            exact absurd hns
              (hdl s (mem_dropLast_of_get? tail (m - 1 - G.length) s hget (by omega)))

end Simplex

namespace Simplex

/-- The final step of a produced artificial history never carries a recorded
pivot selection: an index is recorded only when a successor snapshot is
appended. -/
lemma produced_last_spi (pb : ProblemData) (H : List Step) (hH : ProducedA pb H) :
    ∀ t, H.getLast? = some t → t.selectedPivotIndex = none := by
  induction hH with
  | nil =>
    intro t ht
    exact absurd ht (by simp)
  | step G idx hG ih =>
    cases hGlast : G.getLast? with
    | none =>
      have hGnil : G = [] := List.getLast?_eq_none_iff.mp hGlast
      subst hGnil
      intro t ht
      obtain ⟨tail, heq, htne, -, hall, -⟩ :=
        appendNextSnapshotA_shape pb [] (artificial.createInitialState pb)
      rw [List.nil_append] at heq
      have hH0 : artificial.solveArtificialStep pb [] idx = tail := heq
      rw [hH0] at ht
      exact (hall t (mem_of_getLast? ht)).2.2.2.1
    | some g =>
      by_cases hguard : g.potentialPivots.length = 0 ∨
          g.solutionType ≠ SolutionType.notSolved
      · have hnoop : artificial.solveArtificialStep pb G idx = G := by
          rcases hguard with h | h
          · exact solveArtificialStep_noop pb G g idx hGlast
              (Or.inl (List.length_eq_zero.mp h))
          · exact solveArtificialStep_noop pb G g idx hGlast (Or.inr (Or.inl h))
        rw [hnoop]
        exact ih
      · push_neg at hguard
        obtain ⟨hplen, hgns⟩ := hguard
        cases hpv : g.potentialPivots.get? (idx.getD 0) with
        | none =>
          have hnoop : artificial.solveArtificialStep pb G idx = G :=
            solveArtificialStep_noop pb G g idx hGlast
              (Or.inr (Or.inr (List.get?_eq_none.mp hpv)))
          rw [hnoop]
          exact ih
        | some pv =>
          have hdecomp := solveArtificialStep_advances pb G g idx pv hGlast hgns hpv
          obtain ⟨tail, htaileq, htne, -, hall, -⟩ :=
            appendNextSnapshotA_shape pb []
              (artificial.applyPivotToState (artificial.restoreState pb g) pv)
          rw [List.nil_append] at htaileq
          rw [htaileq] at hdecomp
          intro t ht
          rw [hdecomp, List.getLast?_append_of_ne_nil _ htne] at ht
          exact (hall t (mem_of_getLast? ht)).2.2.2.1

/-- Fuel-indexed replay correctness: from any faithful prefix of a produced
history whose last step is not-solved (possibly with that step's recorded
pivot selection erased), the replay driver rebuilds the whole history once the
fuel covers the missing length. -/
lemma replay_go (pb : ProblemData) (H : List Step) (hH : ProducedA pb H) :
    ∀ fuel m C, 0 < m → m ≤ H.length → H.length - m ≤ fuel →
      (m = H.length ∨ ∃ u, H.get? (m - 1) = some u ∧
        u.solutionType = SolutionType.notSolved) →
      (C = H.take m ∨ ∃ u, H.get? (m - 1) = some u ∧
        C = (H.take m).set (m - 1) { u with selectedPivotIndex := none }) →
      replayA pb H fuel C = H := by
  intro fuel
  induction fuel with
  | zero =>
    intro m C hm hmle hfuel hok hC
    have hmeq : m = H.length := by omega
    subst hmeq
    show C = H
    rcases hC with hC | ⟨u, hu, hC⟩
    · rw [hC, List.take_length H]
    · have huspi : u.selectedPivotIndex = none := by
        apply produced_last_spi pb H hH
        rw [List.getLast?_eq_getElem?, ← List.get?_eq_getElem?]
        exact hu
      have hclear : ({ u with selectedPivotIndex := none } : Step) = u := by
        rw [← huspi]
      rw [hC, List.take_length H, hclear, set_get?_self H _ u hu]
  | succ f ihf =>
    intro m C hm hmle hfuel hok hC
    have hClen : C.length = m := by
      rcases hC with hC | ⟨u, hu, hC⟩
      · rw [hC, List.length_take]; omega
      · rw [hC, List.length_set, List.length_take]; omega
    rw [replayA]
    by_cases hstop : H.length ≤ C.length
    · rw [if_pos hstop]
      have hmeq : m = H.length := by omega
      subst hmeq
      rcases hC with hC | ⟨u, hu, hC⟩
      · rw [hC, List.take_length H]
      · have huspi : u.selectedPivotIndex = none := by
          apply produced_last_spi pb H hH
          rw [List.getLast?_eq_getElem?, ← List.get?_eq_getElem?]
          exact hu
        have hclear : ({ u with selectedPivotIndex := none } : Step) = u := by
          rw [← huspi]
        rw [hC, List.take_length H, hclear, set_get?_self H _ u hu]
    · rw [if_neg hstop]
      have hmlt : m < H.length := by omega
      obtain ⟨u, hu, huns⟩ : ∃ u, H.get? (m - 1) = some u ∧
          u.solutionType = SolutionType.notSolved := by
        rcases hok with hok | hok
        · omega
        · exact hok
      obtain ⟨i, pv, m', t, hspi, hpv, hmm', hm'le, hgt, hterm, heqa⟩ :=
        produced_advance_prefix pb H hH m u hm hmlt hu huns
      have hrec : H.getD (C.length - 1) defStep = u := by
        rw [hClen, List.getD_eq_getElem?_getD, ← List.get?_eq_getElem?, hu]
        rfl
      have hadv : artificial.solveArtificialStep pb C
          ((H.getD (C.length - 1) defStep).selectedPivotIndex) =
          (H.take m').set (m' - 1) { t with selectedPivotIndex := none } := by
        rw [hrec, hspi]
        rcases hC with hC | ⟨u2, hu2, hC⟩
        · rw [hC]
          exact heqa
        · have hu2u : u2 = u := by
            rw [hu] at hu2
            exact (Option.some.inj hu2).symm
          rw [hu2u] at hC
          have hlast : (H.take m).getLast? = some u := by
            rw [getLast?_take H m hm (by omega)]
            exact hu
          have hlentake : (H.take m).length = m := by
            rw [List.length_take]; omega
          have hig := advance_ignores_last_selection pb (H.take m) u none (some i) pv
            hlast huns (by rw [Option.getD_some]; exact hpv)
          rw [hlentake] at hig
          rw [hC, hig]
          exact heqa
      rw [hadv]
      apply ihf m' ((H.take m').set (m' - 1) { t with selectedPivotIndex := none })
        (by omega) hm'le (by omega)
      · rcases Nat.lt_or_ge m' H.length with hl | hl
        · exact Or.inr ⟨t, hgt, hterm hl⟩
        · exact Or.inl (by omega)
      · exact Or.inr ⟨t, hgt, rfl⟩

end Simplex

namespace Simplex

/-- A small produced artificial history: zero objective vector, single
constraint x1 = 1; its middle snapshot is the terminal-typed phase-transition
step. -/
def historyC1 : List Step :=
  artificial.solveArtificialStep probZeroObj
    (artificial.solveArtificialStep probZeroObj [] (some 0)) (some 0)


end Simplex

namespace Simplex

/-- With method artificial, `applyPivotToState` in `solver.ts` computes the
same state as `applyPivotToState` in `artificial.ts`. -/
lemma applyPivotToState_artificial_eq (st : SolverState) (pv : ℕ × ℕ) :
    solver.applyPivotToState st pv .artificial = artificial.applyPivotToState st pv := rfl

/-- The length of the z-row rebuilt by `rebuildOriginalZ` in `solver.ts` is
the matrix's leading row width. -/
lemma rebuildOriginalZS_length (pb : ProblemData) (matrix : List (List ℚ))
    (rowVariables colsVariables : List ℕ) :
    (solver.rebuildOriginalZ pb matrix rowVariables colsVariables).length =
      (matrix.headD []).length := by
  unfold solver.rebuildOriginalZ
  cases pb.objectiveType <;> simp

/-- `appendNextSnapshot` in `solver.ts` returns the given history extended by
one or two new snapshots, exactly as its `artificial.ts` counterpart. -/
lemma appendNextSnapshotS_shape (pb : ProblemData) (steps : List Step) (st : SolverState) :
    ∃ tail : List Step, solver.appendNextSnapshot pb steps st = steps ++ tail ∧
      tail ≠ [] ∧ tail.length ≤ 2 ∧
      (∀ s ∈ tail, s.matrix = st.matrix ∧ s.colsVariables = st.colsVariables ∧
        s.rowVariables = st.rowVariables ∧ s.selectedPivotIndex = none ∧
        s.potentialPivots = (findPotentialPivotsA s.matrix s.z).1 ∧
        s.solutionType = resolveSolutionType (findPotentialPivotsA s.matrix s.z).2
          (findPotentialPivotsA s.matrix s.z).1 ∧
        (s.z = st.z ∨ s.z.length = (st.matrix.headD []).length)) ∧
      (∀ s ∈ tail.dropLast, s.solutionType ≠ SolutionType.notSolved) := by
  by_cases hcond : (snapshotOf st).solutionType ≠ SolutionType.notSolved ∧
      st.artificialPhase = true ∧ isAllZero st.z = true
  · refine ⟨[snapshotOf st, snapshotOf { st with
        z := solver.rebuildOriginalZ pb st.matrix st.rowVariables st.colsVariables
        artificialPhase := false }], ?_, by simp, by simp, ?_, ?_⟩
    · unfold solver.appendNextSnapshot
      dsimp only
      rw [if_pos hcond, List.append_assoc]
      rfl
    · intro s hs
      simp only [List.mem_cons, List.not_mem_nil, or_false] at hs
      rcases hs with hs | hs <;> subst hs
      · exact ⟨rfl, rfl, rfl, rfl, rfl, rfl, Or.inl rfl⟩
      · exact ⟨rfl, rfl, rfl, rfl, rfl, rfl, Or.inr (rebuildOriginalZS_length pb _ _ _)⟩
    · intro s hs
      simp only [List.dropLast, List.mem_singleton] at hs
      subst hs
      exact hcond.1
  · refine ⟨[snapshotOf st], ?_, by simp, by simp, ?_, by simp⟩
    · unfold solver.appendNextSnapshot
      dsimp only
      rw [if_neg hcond]
    · intro s hs
      simp only [List.mem_cons, List.not_mem_nil, or_false] at hs
      subst hs
      exact ⟨rfl, rfl, rfl, rfl, rfl, rfl, Or.inl rfl⟩

lemma solveStepMode_noop (pb : ProblemData) (st0 : SolverState) (method : Method)
    (steps : List Step) (lastStep : Step)
    (idx : Option ℕ) (hlast : steps.getLast? = some lastStep)
    (hcond : lastStep.potentialPivots = [] ∨ lastStep.solutionType ≠ .notSolved ∨
             lastStep.potentialPivots.length ≤ idx.getD 0) :
    solver.solveStepMode pb steps st0 method idx = steps := by
  unfold solver.solveStepMode
  rw [hlast]
  dsimp only
  rcases hcond with h | h | h
  · rw [if_pos (Or.inl (by rw [h]; rfl))]
  · rw [if_pos (Or.inr h)]
  · by_cases hguard : lastStep.potentialPivots.length = 0 ∨
        lastStep.solutionType ≠ SolutionType.notSolved
    · rw [if_pos hguard]
    · rw [if_neg hguard, List.get?_eq_none.mpr h]

lemma appendNextSnapshotS_append (pb : ProblemData) (steps : List Step) (st : SolverState) :
    solver.appendNextSnapshot pb steps st =
      steps ++ solver.appendNextSnapshot pb [] st := by
  unfold solver.appendNextSnapshot
  dsimp only
  by_cases hcond : (snapshotOf st).solutionType ≠ SolutionType.notSolved ∧
      st.artificialPhase = true ∧ isAllZero st.z = true
  · rw [if_pos hcond, if_pos hcond]
    simp
  · rw [if_neg hcond, if_neg hcond]
    simp

lemma solveStepMode_advances (pb : ProblemData) (st0 : SolverState) (method : Method)
    (steps : List Step) (lastStep : Step)
    (idx : Option ℕ) (pv : ℕ × ℕ)
    (hlast : steps.getLast? = some lastStep)
    (htype : lastStep.solutionType = .notSolved)
    (hget : lastStep.potentialPivots.get? (idx.getD 0) = some pv) :
    solver.solveStepMode pb steps st0 method idx =
      steps.set (steps.length - 1)
          { lastStep with selectedPivotIndex := some (idx.getD 0) } ++
        solver.appendNextSnapshot pb []
          (solver.applyPivotToState (solver.restoreState pb lastStep) pv method) := by
  have hlen0 : lastStep.potentialPivots.length ≠ 0 := by
    intro h0
    rw [List.get?_eq_none.mpr (by omega)] at hget
    cases hget
  unfold solver.solveStepMode
  rw [hlast]
  dsimp only
  rw [if_neg (by push_neg; exact ⟨hlen0, by simp [htype]⟩), hget]
  dsimp only
  exact appendNextSnapshotS_append pb _ _

lemma stepmode_ignores_last_selection (pb : ProblemData) (st0 : SolverState)
    (method : Method) (steps : List Step)
    (lastStep : Step) (v : Option ℕ) (idx : Option ℕ) (pv : ℕ × ℕ)
    (hlast : steps.getLast? = some lastStep)
    (htype : lastStep.solutionType = .notSolved)
    (hget : lastStep.potentialPivots.get? (idx.getD 0) = some pv) :
    solver.solveStepMode pb
      (steps.set (steps.length - 1) { lastStep with selectedPivotIndex := v })
      st0 method idx =
    solver.solveStepMode pb steps st0 method idx := by
  have hne : steps ≠ [] := ne_nil_of_getLast? hlast
  rw [solveStepMode_advances pb st0 method steps lastStep idx pv hlast htype hget]
  rw [solveStepMode_advances pb st0 method
    (steps.set (steps.length - 1) { lastStep with selectedPivotIndex := v })
    { lastStep with selectedPivotIndex := v } idx pv
    (getLast?_set_last steps _ hne) htype hget]
  rw [List.length_set, List.set_set]
  rfl

lemma solveStepMode_idx_norm (pb : ProblemData) (steps : List Step)
    (st0 : SolverState) (method : Method) (idx : Option ℕ) :
    solver.solveStepMode pb steps st0 method (some (idx.getD 0)) =
      solver.solveStepMode pb steps st0 method idx := by
  cases idx <;> rfl

end Simplex

namespace Simplex

/-- Step histories obtainable from `solveStepMode` in `solver.ts` by starting
from the empty list and repeatedly advancing with a fixed initial state and
method and arbitrary pivot choices. -/
inductive ProducedS (pb : ProblemData) (st0 : SolverState) (method : Method) :
    List Step → Prop
  | nil : ProducedS pb st0 method []
  | step (steps : List Step) (idx : Option ℕ) (h : ProducedS pb st0 method steps) :
      ProducedS pb st0 method (solver.solveStepMode pb steps st0 method idx)

/-- Replay driver for `solveStepMode`, feeding at each call the pivot index
recorded in the reference history `H` at the current last position. -/
def replayS (pb : ProblemData) (st0 : SolverState) (method : Method)
    (H : List Step) : ℕ → List Step → List Step
  | 0, cur => cur
  | fuel + 1, cur =>
    if H.length ≤ cur.length then cur
    else
      replayS pb st0 method H fuel
        (solver.solveStepMode pb cur st0 method
          ((H.getD (cur.length - 1) defStep).selectedPivotIndex))

/-- Mirror of `produced_advance_prefix` for `solveStepMode` histories. -/
lemma produced_advance_prefixS (pb : ProblemData) (st0 : SolverState)
    (method : Method) (H : List Step) (hH : ProducedS pb st0 method H) :
    ∀ m s, 0 < m → m < H.length → H.get? (m - 1) = some s →
      s.solutionType = SolutionType.notSolved →
      ∃ i pv m' t, s.selectedPivotIndex = some i ∧
        s.potentialPivots.get? i = some pv ∧
        m < m' ∧ m' ≤ H.length ∧ H.get? (m' - 1) = some t ∧
        (m' < H.length → t.solutionType = SolutionType.notSolved) ∧
        solver.solveStepMode pb (H.take m) st0 method (some i) =
          (H.take m').set (m' - 1) { t with selectedPivotIndex := none } := by
  induction hH with
  | nil =>
    intro m s hm hmlt hget hns
    exact absurd hmlt (by simp)
  | step G idx hG ih =>
    cases hGlast : G.getLast? with
    | none =>
      have hGnil : G = [] := List.getLast?_eq_none_iff.mp hGlast
      subst hGnil
      intro m s hm hmlt hget hns
      obtain ⟨tail, heq, htne, -, hall, hdl⟩ := appendNextSnapshotS_shape pb [] st0
      rw [List.nil_append] at heq
      have hH0 : solver.solveStepMode pb [] st0 method idx = tail := heq
      rw [hH0] at hmlt hget
      exact absurd hns (hdl s (mem_dropLast_of_get? tail (m - 1) s hget (by omega)))
    | some g =>
      have hGne : G ≠ [] := ne_nil_of_getLast? hGlast
      have hGpos : 0 < G.length := List.length_pos.mpr hGne
      by_cases hguard : g.potentialPivots.length = 0 ∨
          g.solutionType ≠ SolutionType.notSolved
      · have hnoop : solver.solveStepMode pb G st0 method idx = G := by
          rcases hguard with h | h
          · exact solveStepMode_noop pb st0 method G g idx hGlast
              (Or.inl (List.length_eq_zero.mp h))
          · exact solveStepMode_noop pb st0 method G g idx hGlast (Or.inr (Or.inl h))
        rw [hnoop]
        exact ih
      · push_neg at hguard
        obtain ⟨hplen, hgns⟩ := hguard
        cases hpv : g.potentialPivots.get? (idx.getD 0) with
        | none =>
          have hnoop : solver.solveStepMode pb G st0 method idx = G :=
            solveStepMode_noop pb st0 method G g idx hGlast
              (Or.inr (Or.inr (List.get?_eq_none.mp hpv)))
          rw [hnoop]
          exact ih
        | some pv =>
          have hdecomp := solveStepMode_advances pb st0 method G g idx pv hGlast hgns hpv
          obtain ⟨tail, htaileq, htne, -, hall, hdl⟩ :=
            appendNextSnapshotS_shape pb []
              (solver.applyPivotToState (solver.restoreState pb g) pv method)
          rw [List.nil_append] at htaileq
          rw [htaileq] at hdecomp
          have htpos : 0 < tail.length := List.length_pos.mpr htne
          set gA : Step := { g with selectedPivotIndex := some (idx.getD 0) }
            with hgAdef
          set A : List Step := G.set (G.length - 1) gA with hAdef
          have hlenA : A.length = G.length := by rw [hAdef, List.length_set]
          have hgetgA : A.get? (G.length - 1) = some gA := by
            rw [hAdef, List.get?_eq_getElem?, List.getElem?_set_eq (by omega)]
          have hgetGg : G.get? (G.length - 1) = some g := by
            rw [List.get?_eq_getElem?, ← List.getLast?_eq_getElem? G, hGlast]
          intro m s hm hmlt hget hns
          rw [hdecomp] at hmlt hget ⊢
          rw [List.length_append, hlenA] at hmlt
          rcases Nat.lt_trichotomy m G.length with hmn | hmn | hmn
          · have htakem : (A ++ tail).take m = G.take m := by
              rw [List.take_append_of_le_length (by omega), hAdef,
                take_set_of_le _ _ _ _ (by omega)]
            have hgetm : (A ++ tail).get? (m - 1) = G.get? (m - 1) := by
              rw [List.get?_eq_getElem?,
                List.getElem?_append_left (by omega : m - 1 < A.length), hAdef,
                List.getElem?_set_ne (by omega), List.get?_eq_getElem?]
            rw [hgetm] at hget
            obtain ⟨i, pv2, m', t, hspi, hpv2, hmm', hm'le, hgt, hterm, heqa⟩ :=
              ih m s hm hmn hget hns
            rcases Nat.lt_or_ge m' G.length with hm'n | hm'n
            · have htakem' : (A ++ tail).take m' = G.take m' := by
                rw [List.take_append_of_le_length (by omega), hAdef,
                  take_set_of_le _ _ _ _ (by omega)]
              have hgetm' : (A ++ tail).get? (m' - 1) = G.get? (m' - 1) := by
                rw [List.get?_eq_getElem?,
                  List.getElem?_append_left (by omega : m' - 1 < A.length), hAdef,
                  List.getElem?_set_ne (by omega), List.get?_eq_getElem?]
              refine ⟨i, pv2, m', t, hspi, hpv2, hmm', by
                rw [List.length_append, hlenA]; omega, ?_, ?_, ?_⟩
              · rw [hgetm']; exact hgt
              · exact fun _ => hterm hm'n
              · rw [htakem, htakem']; exact heqa
            · have hm'eq : m' = G.length := by omega
              subst hm'eq
              have ht : t = g := by
                rw [hgetGg] at hgt
                exact (Option.some.inj hgt).symm
              subst ht
              refine ⟨i, pv2, G.length, gA, hspi, hpv2, hmm', by
                rw [List.length_append, hlenA]; omega, ?_, ?_, ?_⟩
              · rw [List.get?_eq_getElem?,
                  List.getElem?_append_left (by omega : G.length - 1 < A.length),
                  ← List.get?_eq_getElem?]
                exact hgetgA
              · intro _
                rw [hgAdef]
                exact hgns
              · rw [htakem]
                rw [List.take_append_of_le_length (by omega),
                  (by rw [hlenA] : A.take A.length = A.take G.length).symm,
                  List.take_length A]
                have hrhs : A.set (G.length - 1)
                    { gA with selectedPivotIndex := none } =
                    (G.take G.length).set (G.length - 1)
                      { t with selectedPivotIndex := none } := by
                  rw [List.take_length G, hAdef, List.set_set, hgAdef]
                rw [hrhs]
                exact heqa
          · subst hmn
            have hs : s = gA := by
              rw [List.get?_eq_getElem?,
                List.getElem?_append_left (by omega : G.length - 1 < A.length),
                ← List.get?_eq_getElem?, hgetgA] at hget
              exact (Option.some.inj hget).symm
            subst hs
            cases htl : tail.getLast? with
            | none => exact absurd (List.getLast?_eq_none_iff.mp htl) htne
            | some t =>
              have htmem : t ∈ tail := mem_of_getLast? htl
              have htspi : t.selectedPivotIndex = none := (hall t htmem).2.2.2.1
              have hgetlast : (A ++ tail).get? ((A ++ tail).length - 1) = some t := by
                rw [List.get?_eq_getElem?, ← List.getLast?_eq_getElem?,
                  List.getLast?_append_of_ne_nil A htne, htl]
              refine ⟨idx.getD 0, pv, (A ++ tail).length, t, by rw [hgAdef], by
                rw [hgAdef]; exact hpv, by
                rw [List.length_append, hlenA]; omega, le_refl _, hgetlast,
                fun hc => absurd hc (lt_irrefl _), ?_⟩
              have htake : (A ++ tail).take G.length = A := by
                rw [← hlenA]
                exact List.take_left A tail
              rw [htake, List.take_length (A ++ tail)]
              have hclear : ({ t with selectedPivotIndex := none } : Step) = t := by
                rw [← htspi]
              rw [hclear, set_get?_self (A ++ tail) _ t hgetlast]
              rw [hAdef, hgAdef]
              rw [stepmode_ignores_last_selection pb st0 method G g (some (idx.getD 0))
                (some (idx.getD 0)) pv hGlast hgns hpv,
                solveStepMode_idx_norm pb G st0 method idx, hdecomp]
          · have hgets : (A ++ tail).get? (m - 1) = tail.get? (m - 1 - A.length) := by
              rw [List.get?_eq_getElem?, List.getElem?_append_right (by omega),
                List.get?_eq_getElem?]
            rw [hgets, hlenA] at hget
            exact absurd hns
              (hdl s (mem_dropLast_of_get? tail (m - 1 - G.length) s hget (by omega)))

end Simplex

namespace Simplex

/-- Mirror of `produced_last_spi` for `solveStepMode` histories. -/
lemma produced_last_spiS (pb : ProblemData) (st0 : SolverState) (method : Method)
    (H : List Step) (hH : ProducedS pb st0 method H) :
    ∀ t, H.getLast? = some t → t.selectedPivotIndex = none := by
  induction hH with
  | nil =>
    intro t ht
    exact absurd ht (by simp)
  | step G idx hG ih =>
    cases hGlast : G.getLast? with
    | none =>
      have hGnil : G = [] := List.getLast?_eq_none_iff.mp hGlast
      subst hGnil
      intro t ht
      obtain ⟨tail, heq, htne, -, hall, -⟩ := appendNextSnapshotS_shape pb [] st0
      rw [List.nil_append] at heq
      have hH0 : solver.solveStepMode pb [] st0 method idx = tail := heq
      rw [hH0] at ht
      exact (hall t (mem_of_getLast? ht)).2.2.2.1
    | some g =>
      by_cases hguard : g.potentialPivots.length = 0 ∨
          g.solutionType ≠ SolutionType.notSolved
      · have hnoop : solver.solveStepMode pb G st0 method idx = G := by
          rcases hguard with h | h
          · exact solveStepMode_noop pb st0 method G g idx hGlast
              (Or.inl (List.length_eq_zero.mp h))
          · exact solveStepMode_noop pb st0 method G g idx hGlast (Or.inr (Or.inl h))
        rw [hnoop]
        exact ih
      · push_neg at hguard
        obtain ⟨hplen, hgns⟩ := hguard
        cases hpv : g.potentialPivots.get? (idx.getD 0) with
        | none =>
          have hnoop : solver.solveStepMode pb G st0 method idx = G :=
            solveStepMode_noop pb st0 method G g idx hGlast
              (Or.inr (Or.inr (List.get?_eq_none.mp hpv)))
          rw [hnoop]
          exact ih
        | some pv =>
          have hdecomp := solveStepMode_advances pb st0 method G g idx pv hGlast hgns hpv
          obtain ⟨tail, htaileq, htne, -, hall, -⟩ :=
            appendNextSnapshotS_shape pb []
              (solver.applyPivotToState (solver.restoreState pb g) pv method)
          rw [List.nil_append] at htaileq
          rw [htaileq] at hdecomp
          intro t ht
          rw [hdecomp, List.getLast?_append_of_ne_nil _ htne] at ht
          exact (hall t (mem_of_getLast? ht)).2.2.2.1

/-- Mirror of `replay_go` for `solveStepMode` histories. -/
lemma replay_goS (pb : ProblemData) (st0 : SolverState) (method : Method)
    (H : List Step) (hH : ProducedS pb st0 method H) :
    ∀ fuel m C, 0 < m → m ≤ H.length → H.length - m ≤ fuel →
      (m = H.length ∨ ∃ u, H.get? (m - 1) = some u ∧
        u.solutionType = SolutionType.notSolved) →
      (C = H.take m ∨ ∃ u, H.get? (m - 1) = some u ∧
        C = (H.take m).set (m - 1) { u with selectedPivotIndex := none }) →
      replayS pb st0 method H fuel C = H := by
  intro fuel
  induction fuel with
  | zero =>
    intro m C hm hmle hfuel hok hC
    have hmeq : m = H.length := by omega
    subst hmeq
    show C = H
    rcases hC with hC | ⟨u, hu, hC⟩
    · rw [hC, List.take_length H]
    · have huspi : u.selectedPivotIndex = none := by
        apply produced_last_spiS pb st0 method H hH
        rw [List.getLast?_eq_getElem?, ← List.get?_eq_getElem?]
        exact hu
      have hclear : ({ u with selectedPivotIndex := none } : Step) = u := by
        rw [← huspi]
      rw [hC, List.take_length H, hclear, set_get?_self H _ u hu]
  | succ f ihf =>
    intro m C hm hmle hfuel hok hC
    have hClen : C.length = m := by
      rcases hC with hC | ⟨u, hu, hC⟩
      · rw [hC, List.length_take]; omega
      · rw [hC, List.length_set, List.length_take]; omega
    rw [replayS]
    by_cases hstop : H.length ≤ C.length
    · rw [if_pos hstop]
      have hmeq : m = H.length := by omega
      subst hmeq
      rcases hC with hC | ⟨u, hu, hC⟩
      · rw [hC, List.take_length H]
      · have huspi : u.selectedPivotIndex = none := by
          apply produced_last_spiS pb st0 method H hH
          rw [List.getLast?_eq_getElem?, ← List.get?_eq_getElem?]
          exact hu
        have hclear : ({ u with selectedPivotIndex := none } : Step) = u := by
          rw [← huspi]
        rw [hC, List.take_length H, hclear, set_get?_self H _ u hu]
    · rw [if_neg hstop]
      have hmlt : m < H.length := by omega
      obtain ⟨u, hu, huns⟩ : ∃ u, H.get? (m - 1) = some u ∧
          u.solutionType = SolutionType.notSolved := by
        rcases hok with hok | hok
        · omega
        · exact hok
      obtain ⟨i, pv, m', t, hspi, hpv, hmm', hm'le, hgt, hterm, heqa⟩ :=
        produced_advance_prefixS pb st0 method H hH m u hm hmlt hu huns
      have hrec : H.getD (C.length - 1) defStep = u := by
        rw [hClen, List.getD_eq_getElem?_getD, ← List.get?_eq_getElem?, hu]
        rfl
      have hadv : solver.solveStepMode pb C st0 method
          ((H.getD (C.length - 1) defStep).selectedPivotIndex) =
          (H.take m').set (m' - 1) { t with selectedPivotIndex := none } := by
        rw [hrec, hspi]
        rcases hC with hC | ⟨u2, hu2, hC⟩
        · rw [hC]
          exact heqa
        · have hu2u : u2 = u := by
            rw [hu] at hu2
            exact (Option.some.inj hu2).symm
          rw [hu2u] at hC
          have hlast : (H.take m).getLast? = some u := by
            rw [getLast?_take H m hm (by omega)]
            exact hu
          have hlentake : (H.take m).length = m := by
            rw [List.length_take]; omega
          have hig := stepmode_ignores_last_selection pb st0 method (H.take m) u none
            (some i) pv hlast huns (by rw [Option.getD_some]; exact hpv)
          rw [hlentake] at hig
          rw [hC, hig]
          exact heqa
      rw [hadv]
      apply ihf m' ((H.take m').set (m' - 1) { t with selectedPivotIndex := none })
        (by omega) hm'le (by omega)
      · rcases Nat.lt_or_ge m' H.length with hl | hl
        · exact Or.inr ⟨t, hgt, hterm hl⟩
        · exact Or.inl (by omega)
      · exact Or.inr ⟨t, hgt, rfl⟩

end Simplex

namespace Simplex

/-- A small produced `solveStepMode` history (artificial method, artificial
initial basis): zero objective vector, single constraint x1 = 1; its middle
snapshot is the terminal-typed phase-transition step. -/
def historyS1 : List Step :=
  solver.solveStepMode probZeroObj
    (solver.solveStepMode probZeroObj [] (artificial.createInitialState probZeroObj)
      Method.artificial (some 0))
    (artificial.createInitialState probZeroObj) Method.artificial (some 0)

/-- C1 (amended).  Replay determinism of both advance operations: for every
history `H` produced by repeated advance calls — `solveArtificialStep` from
`artificial.ts`, or `solveStepMode` from `solver.ts` with any initial state
and method — and every cut position `k` whose step is still not-solved,
advancing forward from the prefix `H[:k+1]` while feeding at each call the
pivot index recorded in `H`'s `selectedPivotIndex` fields reproduces the
remaining steps of `H` exactly — identical matrices, z-rows, labels, pivot
candidates and solution types — because the solver state is reconstructed
purely from the last step's matrix and labels.  (As frozen, over arbitrary
prefixes, the claim fails for both functions: cutting right after the
interior terminal-typed phase-transition snapshot makes every advance a
no-op; see the accompanying counterexample.) -/
theorem advance_replay_determinism (pb : ProblemData) (H : List Step)
    (k : ℕ) (s : Step) (hs : H.get? k = some s)
    (hns : s.solutionType = SolutionType.notSolved) :
    (ProducedA pb H → replayA pb H H.length (H.take (k + 1)) = H) ∧
    (∀ st0 method, ProducedS pb st0 method H →
      replayS pb st0 method H H.length (H.take (k + 1)) = H) := by
  have hklt : k < H.length := (List.get?_eq_some.mp hs).1
  constructor
  · intro hH
    exact replay_go pb H hH H.length (k + 1) (H.take (k + 1)) (by omega) (by omega)
      (by omega) (Or.inr ⟨s, by simpa using hs, hns⟩) (Or.inl rfl)
  · intro st0 method hH
    exact replay_goS pb st0 method H hH H.length (k + 1) (H.take (k + 1)) (by omega)
      (by omega) (by omega) (Or.inr ⟨s, by simpa using hs, hns⟩) (Or.inl rfl)

/-- Witness for C1: replaying `historyC1` (artificial engine) and `historyS1`
(`solveStepMode`) from their one-step prefixes, whose step is not-solved,
rebuilds both three-step histories. -/
theorem advance_replay_determinism_witness :
    replayA probZeroObj historyC1 historyC1.length (historyC1.take 1) = historyC1 ∧
    replayS probZeroObj (artificial.createInitialState probZeroObj) Method.artificial
      historyS1 historyS1.length (historyS1.take 1) = historyS1 :=
  ⟨(advance_replay_determinism probZeroObj historyC1 0 (historyC1.getD 0 defStep)
      (by decide) (by decide)).1
      (ProducedA.step _ (some 0) (ProducedA.step [] (some 0) ProducedA.nil)),
   (advance_replay_determinism probZeroObj historyS1 0 (historyS1.getD 0 defStep)
      (by decide) (by decide)).2 _ _
      (ProducedS.step _ (some 0) (ProducedS.step [] (some 0) ProducedS.nil))⟩

/-- Counterexample to C1 as frozen: the produced histories `historyC1`
(artificial engine) and `historyS1` (`solveStepMode`) both carry an interior
terminal-typed snapshot (the phase-transition optimum at position 1), and
advancing the two-step prefix — with the recorded pivot index or any other —
returns the prefix unchanged in both engines, so the remaining step is never
reproduced. -/
theorem replay_stalls_at_interior_terminal_cut :
    (ProducedA probZeroObj historyC1 ∧
     historyC1.length = 3 ∧
     (historyC1.getD 1 defStep).solutionType = SolutionType.optimal ∧
     (∀ idx : Option ℕ,
       artificial.solveArtificialStep probZeroObj (historyC1.take 2) idx =
         historyC1.take 2) ∧
     historyC1.take 2 ≠ historyC1) ∧
    (ProducedS probZeroObj (artificial.createInitialState probZeroObj)
       Method.artificial historyS1 ∧
     historyS1.length = 3 ∧
     (historyS1.getD 1 defStep).solutionType = SolutionType.optimal ∧
     (∀ idx : Option ℕ,
       solver.solveStepMode probZeroObj (historyS1.take 2)
         (artificial.createInitialState probZeroObj) Method.artificial idx =
         historyS1.take 2) ∧
     historyS1.take 2 ≠ historyS1) :=
  ⟨⟨ProducedA.step _ (some 0) (ProducedA.step [] (some 0) ProducedA.nil),
    by decide, by decide,
    fun idx => solveArtificialStep_noop probZeroObj (historyC1.take 2)
      (historyC1.getD 1 defStep) idx (by decide)
      (Or.inr (Or.inl (by decide))),
    by decide⟩,
   ⟨ProducedS.step _ (some 0) (ProducedS.step [] (some 0) ProducedS.nil),
    by decide, by decide,
    fun idx => solveStepMode_noop probZeroObj
      (artificial.createInitialState probZeroObj) Method.artificial
      (historyS1.take 2) (historyS1.getD 1 defStep) idx (by decide)
      (Or.inr (Or.inl (by decide))),
    by decide⟩⟩

end Simplex

namespace Simplex

/-- Advancing a well-formed `solveStepMode` history (artificial method) whose
last step is `not-solved` with the default pivot: the history grows, and the
new final snapshot is again well-formed with exactly one fewer non-basic
column. -/
lemma advance_from_notSolvedS (pb : ProblemData) (st0 : SolverState)
    (steps : List Step) (lastStep : Step)
    (hlast : steps.getLast? = some lastStep)
    (hwf : WfStep lastStep)
    (htype : lastStep.solutionType = .notSolved) :
    ∃ newLast,
      (solver.solveStepMode pb steps st0 .artificial (some 0)).getLast? = some newLast ∧
      WfStep newLast ∧
      newLast.colsVariables.length + 1 = lastStep.colsVariables.length ∧
      steps.length < (solver.solveStepMode pb steps st0 .artificial (some 0)).length := by
  obtain ⟨hpiv, hsol, hzlen, hmlen⟩ := hwf
  have hne : (findPotentialPivotsA lastStep.matrix lastStep.z).1 ≠ [] := by
    have := htype
    rw [hsol] at this
    exact ((resolveSolutionType_notSolved_iff _ _).mp this).2
  obtain ⟨pv, rest, hcons⟩ : ∃ pv rest,
      (findPotentialPivotsA lastStep.matrix lastStep.z).1 = pv :: rest := by
    cases hl : (findPotentialPivotsA lastStep.matrix lastStep.z).1 with
    | nil => exact absurd hl hne
    | cons a b => exact ⟨a, b, rfl⟩
  have hget : lastStep.potentialPivots.get? ((some 0).getD 0) = some pv := by
    rw [hpiv, hcons]
    rfl
  obtain ⟨r, c⟩ := pv
  have hmem : (r, c) ∈ (findPotentialPivotsA lastStep.matrix lastStep.z).1 := by
    rw [hcons]
    exact List.mem_cons_self _ _
  have hcz : c < lastStep.z.length - 1 := by
    have hmem2 := (findPivotsCols_mem lastStep.matrix lastStep.z
      ((lastStep.matrix.headD []).length - 1) (lastStep.z.length - 1) 0).2 r c
    have : (r, c) ∈ (findPivotsCols artificialCanLeave 0 lastStep.matrix lastStep.z
        ((lastStep.matrix.headD []).length - 1) (lastStep.z.length - 1) 0).1 := hmem
    obtain ⟨-, h2, -, -⟩ := hmem2.mp this
    omega
  have hcc : c < lastStep.colsVariables.length := by omega
  have hrw := solveStepMode_advances pb st0 .artificial steps lastStep (some 0) (r, c)
    hlast htype hget
  obtain ⟨tail, htail, htne, -, hall, -⟩ := appendNextSnapshotS_shape pb []
    (solver.applyPivotToState (solver.restoreState pb lastStep) (r, c) .artificial)
  rw [List.nil_append] at htail
  have hstate : WfState (solver.applyPivotToState
      (solver.restoreState pb lastStep) (r, c) .artificial) := by
    rw [applyPivotToState_artificial_eq]
    exact applyPivot_wfState _ r c hcc ⟨hzlen, hmlen⟩
  cases hlastT : tail.getLast? with
  | none =>
    exact absurd (List.getLast?_eq_none_iff.mp hlastT) htne
  | some newLast =>
    have hmemT : newLast ∈ tail := mem_of_getLast? hlastT
    obtain ⟨hmx, hcv, -, -, hpp, hst, hzc⟩ := hall newLast hmemT
    refine ⟨newLast, ?_, ?_, ?_, ?_⟩
    · rw [hrw, htail, List.getLast?_append_of_ne_nil _ htne]
      exact hlastT
    · refine ⟨hpp, hst, ?_, ?_⟩
      · rcases hzc with hzc | hzc
        · rw [hzc, hcv]
          exact hstate.1
        · rw [hzc, hcv, ← hmx]
          rw [hmx]
          exact hstate.2
      · rw [hmx, hcv]
        exact hstate.2
    · rw [hcv]
      show (lastStep.colsVariables.eraseIdx c).length + 1 = _
      rw [length_eraseIdx_lt _ _ hcc]
      omega
    · rw [hrw, htail, List.length_append, List.length_set]
      have : 0 < tail.length := List.length_pos.mpr htne
      omega

/-- The `doSimplex` loop with method artificial stabilises exactly like the
`solveArtificial` loop: once the fuel exceeds the non-basic column count of
the (well-formed) last step, more fuel cannot change the result, and the
result ends in a terminal step. -/
lemma doSimplexLoop_stable (pb : ProblemData) (st0 : SolverState) :
    ∀ B steps lastStep, steps.getLast? = some lastStep → WfStep lastStep →
      lastStep.colsVariables.length < B →
      ∀ f1 f2, B ≤ f1 → B ≤ f2 →
        solver.doSimplexLoop pb st0 .artificial f1 steps =
          solver.doSimplexLoop pb st0 .artificial f2 steps ∧
        ∃ t, (solver.doSimplexLoop pb st0 .artificial f1 steps).getLast? = some t ∧
          t.solutionType ≠ .notSolved := by
  intro B
  induction B with
  | zero =>
    intro steps lastStep hlast hwf hB
    omega
  | succ B ih =>
    intro steps lastStep hlast hwf hB f1 f2 hf1 hf2
    cases f1 with
    | zero => omega
    | succ a =>
      cases f2 with
      | zero => omega
      | succ b =>
        rw [solver.doSimplexLoop, solver.doSimplexLoop]
        by_cases htype : lastStep.solutionType = SolutionType.notSolved
        · obtain ⟨newLast, hnewLast, hnewWf, hnewCols, hgrow⟩ :=
            advance_from_notSolvedS pb st0 steps lastStep hlast hwf htype
          rw [if_neg (by omega), if_neg (by omega), hnewLast]
          dsimp only
          by_cases hterm : newLast.solutionType ≠ SolutionType.notSolved
          · rw [if_pos hterm, if_pos hterm]
            exact ⟨rfl, newLast, hnewLast, hterm⟩
          · rw [if_neg hterm, if_neg hterm]
            exact ih (solver.solveStepMode pb steps st0 .artificial (some 0)) newLast
              hnewLast hnewWf (by omega) a b (by omega) (by omega)
        · have hnoop : solver.solveStepMode pb steps st0 .artificial (some 0) = steps :=
            solveStepMode_noop pb st0 .artificial steps lastStep (some 0) hlast
              (Or.inr (Or.inl htype))
          rw [hnoop, if_pos rfl, if_pos rfl]
          exact ⟨rfl, lastStep, hlast, htype⟩

end Simplex

namespace Simplex

/-- The `doSimplex` auto-solve with method artificial reaches its fixed
point: with any fuel of at least the initial non-basic column count + 2, the
`while (true)` loop has already stabilised and the returned solution's final
step is terminal. -/
lemma doSimplex_fixed_point (pb : ProblemData) (st0 : SolverState)
    (hst0 : WfState st0) (f1 f2 : ℕ)
    (h1 : st0.colsVariables.length + 2 ≤ f1)
    (h2 : st0.colsVariables.length + 2 ≤ f2) :
    solver.doSimplex pb st0 .artificial f1 = solver.doSimplex pb st0 .artificial f2 ∧
    ∃ t, (solver.doSimplex pb st0 .artificial f1).steps.getLast? = some t ∧
      t.solutionType ≠ .notSolved := by
  have hloop : solver.doSimplexLoop pb st0 .artificial f1 [] =
      solver.doSimplexLoop pb st0 .artificial f2 [] ∧
      ∃ t, (solver.doSimplexLoop pb st0 .artificial f1 []).getLast? = some t ∧
        t.solutionType ≠ .notSolved := by
    cases f1 with
    | zero => omega
    | succ a =>
      cases f2 with
      | zero => omega
      | succ b =>
        rw [solver.doSimplexLoop, solver.doSimplexLoop]
        have hfirst : solver.solveStepMode pb [] st0 .artificial (some 0) =
            solver.appendNextSnapshot pb [] st0 := rfl
        obtain ⟨tail0, htail0, htne0, -, hall0, -⟩ := appendNextSnapshotS_shape pb [] st0
        rw [List.nil_append] at htail0
        have hlen0 : 0 < tail0.length := List.length_pos.mpr htne0
        cases hlastT : tail0.getLast? with
        | none => exact absurd (List.getLast?_eq_none_iff.mp hlastT) htne0
        | some t0 =>
          have hmemT : t0 ∈ tail0 := mem_of_getLast? hlastT
          obtain ⟨hmx, hcv, -, -, hpp, hst, hzc⟩ := hall0 t0 hmemT
          have ht0Wf : WfStep t0 := by
            refine ⟨hpp, hst, ?_, ?_⟩
            · rcases hzc with hzc | hzc
              · rw [hzc, hcv]
                exact hst0.1
              · rw [hzc, hcv, ← hmx, hmx]
                exact hst0.2
            · rw [hmx, hcv]
              exact hst0.2
          have hcols0 : t0.colsVariables.length = st0.colsVariables.length := by
            rw [hcv]
          rw [hfirst, htail0]
          rw [if_neg (by simp only [List.length_nil]; omega),
            if_neg (by simp only [List.length_nil]; omega), hlastT]
          dsimp only
          by_cases hterm : t0.solutionType ≠ SolutionType.notSolved
          · rw [if_pos hterm, if_pos hterm]
            exact ⟨rfl, t0, hlastT, hterm⟩
          · rw [if_neg hterm, if_neg hterm]
            exact doSimplexLoop_stable pb st0 (t0.colsVariables.length + 1) tail0 t0
              hlastT ht0Wf (by omega) a b (by omega) (by omega)
  obtain ⟨heq, t, hlastD, hterm⟩ := hloop
  constructor
  · unfold solver.doSimplex
    rw [heq]
  · unfold solver.doSimplex
    dsimp only
    rw [hlastD]
    dsimp only
    have hne : solver.doSimplexLoop pb st0 .artificial f1 [] ≠ [] :=
      ne_nil_of_getLast? hlastD
    by_cases hcond : t.solutionType = SolutionType.optimal ∧
        (solver.extractSolutionFromSteps pb
          (solver.doSimplexLoop pb st0 .artificial f1 [])).length = 0
    · rw [if_pos hcond]
      refine ⟨{ t with solutionType := .unbounded }, ?_, by
        intro hcontra
        cases hcontra⟩
      exact getLast?_set_last _ _ hne
    · rw [if_neg hcond]
      exact ⟨t, hlastD, hterm⟩

end Simplex

namespace Simplex

/-- C7 (amended).  Both artificial-method auto-solves — `solveArtificial` in
`artificial.ts` and `doSimplex` in `solver.ts` with method artificial — always
terminate, but without any iteration cap: each `while (true)` loop breaks only
when an advance is a no-op or the last snapshot is terminal, and since every
artificial pivot deletes one non-basic column, any fuel of at least the
non-basic column count + 2 has already reached the fixed point; the run ends
in a terminal step, never leaving a `not-solved` history.  (As frozen — a
fixed pivot bound reported as a distinct 'did not converge' condition — the
claim is false: no such bound or outcome exists in the code; see the
accompanying counterexample.) -/
theorem auto_solve_terminates_uncapped (pb : ProblemData) (st0 : SolverState)
    (hst0 : WfState st0) (f1 f2 : ℕ)
    (h1 : pb.numVariables + 2 ≤ f1) (h2 : pb.numVariables + 2 ≤ f2)
    (h1s : st0.colsVariables.length + 2 ≤ f1)
    (h2s : st0.colsVariables.length + 2 ≤ f2) :
    (artificial.solveArtificial pb f1 = artificial.solveArtificial pb f2 ∧
      ∃ t, (artificial.solveArtificial pb f1).steps.getLast? = some t ∧
        t.solutionType ≠ .notSolved) ∧
    (solver.doSimplex pb st0 .artificial f1 = solver.doSimplex pb st0 .artificial f2 ∧
      ∃ t, (solver.doSimplex pb st0 .artificial f1).steps.getLast? = some t ∧
        t.solutionType ≠ .notSolved) :=
  ⟨solveArtificial_fixed_point pb f1 f2 h1 h2,
   doSimplex_fixed_point pb st0 hst0 f1 f2 h1s h2s⟩

/-- Witness for C7: on `probZeroObj` (one variable, so bound 1 + 2 = 3), fuel
10 and fuel 3 give identical finished solutions for both auto-solves. -/
theorem auto_solve_terminates_uncapped_witness :
    artificial.solveArtificial probZeroObj 10 = artificial.solveArtificial probZeroObj 3 ∧
    solver.doSimplex probZeroObj (artificial.createInitialState probZeroObj)
        .artificial 10 =
      solver.doSimplex probZeroObj (artificial.createInitialState probZeroObj)
        .artificial 3 :=
  ⟨(auto_solve_terminates_uncapped probZeroObj
      (artificial.createInitialState probZeroObj) ⟨by decide, by decide⟩ 10 3
      (by decide) (by decide) (by decide) (by decide)).1.1,
   (auto_solve_terminates_uncapped probZeroObj
      (artificial.createInitialState probZeroObj) ⟨by decide, by decide⟩ 10 3
      (by decide) (by decide) (by decide) (by decide)).2.1⟩

/-- Counterexample to C7 as frozen: the solver's outcome vocabulary has no
'did not converge' value at all — `SolutionType` holds exactly optimal,
unbounded, infeasible and not-solved — and the classifier
`resolveSolutionType`, the only producer of terminal snapshot types, never
yields anything but optimal, unbounded or not-solved, so a distinct
loudly-reported non-convergence condition cannot exist, and the loops carry
no pivot-count bound to trigger one. -/
theorem no_nonconvergence_outcome :
    (∀ s : SolutionType, s = SolutionType.optimal ∨ s = SolutionType.unbounded ∨
      s = SolutionType.infeasible ∨ s = SolutionType.notSolved) ∧
    (∀ (b : Bool) (pivots : List (ℕ × ℕ)),
      resolveSolutionType b pivots = SolutionType.optimal ∨
      resolveSolutionType b pivots = SolutionType.unbounded ∨
      resolveSolutionType b pivots = SolutionType.notSolved) := by
  constructor
  · intro s
    cases s with
    | optimal => exact Or.inl rfl
    | unbounded => exact Or.inr (Or.inl rfl)
    | infeasible => exact Or.inr (Or.inr (Or.inl rfl))
    | notSolved => exact Or.inr (Or.inr (Or.inr rfl))
  · intro b pivots
    cases b with
    | false => exact Or.inl rfl
    | true =>
      cases pivots with
      | nil => exact Or.inr (Or.inl rfl)
      | cons p ps => exact Or.inr (Or.inr rfl)

end Simplex

namespace Simplex

/-- Column `j` of the stored tableau is the `i`-th identity column. -/
def ColIsUnit (matrix : List (List ℚ)) (i j : ℕ) : Prop :=
  ∀ r, r < matrix.length → getEntry matrix r j = if r = i then 1 else 0

/-- Canonical form of a stored tableau: distinct column labels, one basic row
label per matrix row, uniform row width, a z-row no wider than the columns,
and — the heart of the invariant — every stored column that carries a basic
row's label is that row's identity column. -/
def CanonTab (matrix : List (List ℚ)) (z : List ℚ) (rows cols : List ℕ) : Prop :=
  cols.Nodup ∧
  rows.length = matrix.length ∧
  (∀ t, t < matrix.length → (matrix.getD t []).length = cols.length + 1) ∧
  z.length ≤ cols.length + 1 ∧
  (∀ i j, i < rows.length → j < cols.length →
    cols.getD j 0 = rows.getD i 0 → ColIsUnit matrix i j)

/-- Canonical form of a solver state. -/
def CanonState (st : SolverState) : Prop :=
  CanonTab st.matrix st.z st.rowVariables st.colsVariables

/-- Canonical form of a snapshot, together with the fact that its recorded
pivot candidates are the search's output on its own tableau. -/
def CanonStep (s : Step) : Prop :=
  s.potentialPivots = (findPotentialPivotsA s.matrix s.z).1 ∧
  CanonTab s.matrix s.z s.rowVariables s.colsVariables

lemma getD_set_ne {α : Type} (l : List α) (r : ℕ) (v : α) (i : ℕ) (d : α) (h : i ≠ r) :
    (l.set r v).getD i d = l.getD i d := by
  rw [List.getD_eq_getElem?_getD, List.getD_eq_getElem?_getD,
    List.getElem?_set_ne (by omega)]

lemma getD_set_self {α : Type} (l : List α) (r : ℕ) (v : α) (d : α) (h : r < l.length) :
    (l.set r v).getD r d = v := by
  rw [List.getD_eq_getElem?_getD, List.getElem?_set_eq h]
  rfl

lemma getD_eraseIdx {α : Type} (l : List α) (c j : ℕ) (d : α) :
    (l.eraseIdx c).getD j d = if j < c then l.getD j d else l.getD (j + 1) d := by
  rw [List.getD_eq_getElem?_getD, List.getD_eq_getElem?_getD, List.getD_eq_getElem?_getD]
  rw [List.getElem?_eraseIdx]
  by_cases hj : j < c
  · rw [if_pos hj, if_pos hj]
  · rw [if_neg hj, if_neg hj]

lemma nodup_getD_ne (l : List ℕ) (h : l.Nodup) (i j : ℕ)
    (hi : i < l.length) (hj : j < l.length) (hne : i ≠ j) :
    l.getD i 0 ≠ l.getD j 0 := by
  intro heq
  rw [List.getD_eq_getElem l 0 hi, List.getD_eq_getElem l 0 hj] at heq
  exact hne (h.getElem_inj_iff.mp heq)

/-- Any pivot point emitted by the artificial-predicate search lies in the
matrix, addresses a genuine (pre-RHS) column and has a nonzero, not-negative
pivot coefficient. -/
lemma mem_findPotentialPivotsA (m : List (List ℚ)) (z : List ℚ) (r c : ℕ)
    (h : (r, c) ∈ (findPotentialPivotsA m z).1) :
    r < m.length ∧ c < z.length - 1 ∧ getEntry m r c ≠ 0 := by
  have hmem := ((findPivotsCols_mem m z ((m.headD []).length - 1)
    (z.length - 1) 0).2 r c).mp h
  obtain ⟨-, hc, -, mr, hfound⟩ := hmem
  have hinv := findLeavingRow_full m ((m.headD []).length - 1) c
  rw [hfound] at hinv
  obtain ⟨hr, helig, -⟩ := hinv
  exact ⟨hr, by omega, ((eligibleA_iff m r c).mp helig).1⟩

/-- Pivoting the extended tableau `m ++ [z]` preserves every identity column
of `m` whose unit row is not the pivot row. -/
lemma performPivot_preserves_unit_col (m : List (List ℚ)) (z : List ℚ)
    (r c j k : ℕ) (hr : r < m.length)
    (hp : getEntry (m ++ [z]) r c ≠ 0) (hk : k ≠ r)
    (hcol : ∀ t, t < m.length → getEntry m t j = if t = k then 1 else 0)
    (hwidths : ∀ t, t < m.length → j < (m.getD t []).length) :
    ∀ t, t < m.length →
      getEntry (performPivot (m ++ [z]) r c) t j = if t = k then 1 else 0 := by
  have hTrow : ∀ t, t < m.length → (m ++ [z]).getD t [] = m.getD t [] := by
    intro t ht
    exact getD_append_left _ _ _ _ ht
  have hTentry : ∀ t, t < m.length → ∀ q, getEntry (m ++ [z]) t q = getEntry m t q := by
    intro t ht q
    unfold getEntry
    rw [hTrow t ht]
  have hTrj : getEntry (m ++ [z]) r j = 0 := by
    rw [hTentry r hr, hcol r hr, if_neg (fun h => hk h.symm)]
  intro t ht
  have htT : t < (m ++ [z]).length := by
    rw [List.length_append]
    omega
  rw [performPivot_getEntry (m ++ [z]) r c t j htT
    (Or.inr (by rw [hTrow t ht]; exact hwidths t ht))]
  by_cases htr : t = r
  · subst htr
    rw [if_pos rfl, hTrj, zero_div, if_neg (fun h => hk h.symm)]
  · rw [if_neg htr, hTrj, zero_div, mul_zero, sub_zero, hTentry t ht, hcol t ht]

end Simplex

namespace Simplex

lemma getEntry_append_left (m : List (List ℚ)) (z : List ℚ) (t q : ℕ)
    (ht : t < m.length) : getEntry (m ++ [z]) t q = getEntry m t q := by
  unfold getEntry
  rw [getD_append_left _ _ _ _ ht]

lemma getEntry_dropLast (P : List (List ℚ)) (t q : ℕ) (ht : t < P.length - 1) :
    getEntry P.dropLast t q = getEntry P t q := by
  unfold getEntry
  rw [dropLast_getD _ _ _ ht]

/-- A simplex-method pivot on a canonical state yields a canonical state:
the entering column becomes the pivot row's identity column, every other
basic column is preserved, and the labels stay consistent. -/
lemma applyPivot_canon_simplex (st : SolverState) (r c : ℕ)
    (hmem : (r, c) ∈ (findPotentialPivotsA st.matrix st.z).1)
    (hcanon : CanonState st) :
    CanonState (solver.applyPivotToState st (r, c) .simplex) := by
  obtain ⟨hnodup, hrowlen, hwidth, hzlen, hunits⟩ := hcanon
  obtain ⟨hr, hcz, hne0⟩ := mem_findPotentialPivotsA st.matrix st.z r c hmem
  have hcc : c < st.colsVariables.length := by omega
  have hpT : getEntry (st.matrix ++ [st.z]) r c ≠ 0 := by
    rw [getEntry_append_left _ _ _ _ hr]
    exact hne0
  have hTlen : (st.matrix ++ [st.z]).length = st.matrix.length + 1 := by simp
  have hPlen : (performPivot (st.matrix ++ [st.z]) r c).length = st.matrix.length + 1 := by
    rw [performPivot_length, hTlen]
  have hProw : ∀ t, t < st.matrix.length + 1 →
      ((performPivot (st.matrix ++ [st.z]) r c).getD t []).length =
        ((st.matrix ++ [st.z]).getD t []).length := by
    intro t ht
    exact performPivot_row_length _ _ _ _ (by rw [hTlen]; omega)
  obtain ⟨hpc1, hpc0, -⟩ := performPivot_pivot_column (st.matrix ++ [st.z]) r c hpT
  refine ⟨hnodup, ?_, ?_, ?_, ?_⟩
  · show (st.rowVariables.set r _).length = (performPivot _ r c).dropLast.length
    rw [List.length_set, List.length_dropLast, hPlen]
    omega
  · show ∀ t, t < (performPivot _ r c).dropLast.length → _
    intro t ht
    rw [List.length_dropLast, hPlen] at ht
    show (((performPivot (st.matrix ++ [st.z]) r c).dropLast).getD t []).length = _
    rw [dropLast_getD _ _ _ (by omega), hProw t (by omega),
      getD_append_left _ _ _ _ (by omega)]
    exact hwidth t (by omega)
  · show ((performPivot (st.matrix ++ [st.z]) r c).getLast?.getD []).length ≤ _
    rw [getLast?_getD_of_ne_nil _ _ (by
      intro hnil
      rw [hnil] at hPlen
      simp at hPlen)]
    rw [hPlen]
    simp only [Nat.add_sub_cancel]
    rw [hProw st.matrix.length (by omega)]
    have hzr : (st.matrix ++ [st.z]).getD st.matrix.length [] = st.z := by
      rw [getD_of_lt _ _ _ (by simp)]
      simp
    rw [hzr]
    exact hzlen
  · intro i j hi hj heq
    have hi2 : i < (st.rowVariables.set r (st.colsVariables.getD c 0)).length := hi
    rw [List.length_set] at hi2
    have hj2 : j < st.colsVariables.length := hj
    have heq2 : st.colsVariables.getD j 0 =
        (st.rowVariables.set r (st.colsVariables.getD c 0)).getD i 0 := heq
    show ColIsUnit (performPivot (st.matrix ++ [st.z]) r c).dropLast i j
    have hmatlen : (performPivot (st.matrix ++ [st.z]) r c).dropLast.length =
        st.matrix.length := by
      rw [List.length_dropLast, hPlen]
      omega
    by_cases hir : i = r
    · subst hir
      rw [getD_set_self _ _ _ _ (by omega)] at heq2
      have hjc : j = c := by
        by_contra hjc
        exact nodup_getD_ne st.colsVariables hnodup j c hj2 hcc hjc heq2
      subst hjc
      intro t ht
      rw [hmatlen] at ht
      rw [getEntry_dropLast _ _ _ (by omega)]
      by_cases htr : t = i
      · subst htr
        rw [if_pos rfl]
        exact hpc1
      · rw [if_neg htr]
        exact hpc0 t (by rw [hTlen]; omega) htr
    · rw [getD_set_ne _ _ _ _ _ hir] at heq2
      have hold : ColIsUnit st.matrix i j :=
        hunits i j (by rw [hrowlen]; omega) hj2 heq2
      intro t ht
      rw [hmatlen] at ht
      rw [getEntry_dropLast _ _ _ (by omega)]
      exact performPivot_preserves_unit_col st.matrix st.z r c j i hr hpT hir
        hold (fun t2 ht2 => by rw [hwidth t2 ht2]; omega) t ht

end Simplex

namespace Simplex

/-- An artificial-method pivot on a canonical state yields a canonical state:
besides the simplex bookkeeping, the entering column is deleted, so surviving
stored basic columns are exactly the preserved identity columns. -/
lemma applyPivot_canon_artificial (st : SolverState) (r c : ℕ)
    (hmem : (r, c) ∈ (findPotentialPivotsA st.matrix st.z).1)
    (hcanon : CanonState st) :
    CanonState (artificial.applyPivotToState st (r, c)) := by
  obtain ⟨hnodup, hrowlen, hwidth, hzlen, hunits⟩ := hcanon
  obtain ⟨hr, hcz, hne0⟩ := mem_findPotentialPivotsA st.matrix st.z r c hmem
  have hcc : c < st.colsVariables.length := by omega
  have hpT : getEntry (st.matrix ++ [st.z]) r c ≠ 0 := by
    rw [getEntry_append_left _ _ _ _ hr]
    exact hne0
  have hTlen : (st.matrix ++ [st.z]).length = st.matrix.length + 1 := by simp
  have hPlen : (performPivot (st.matrix ++ [st.z]) r c).length = st.matrix.length + 1 := by
    rw [performPivot_length, hTlen]
  have hProw : ∀ t, t < st.matrix.length + 1 →
      ((performPivot (st.matrix ++ [st.z]) r c).getD t []).length =
        ((st.matrix ++ [st.z]).getD t []).length := by
    intro t ht
    exact performPivot_row_length _ _ _ _ (by rw [hTlen]; omega)
  have hFlen : ((performPivot (st.matrix ++ [st.z]) r c).map
      (fun row => row.eraseIdx c)).length = st.matrix.length + 1 := by
    rw [List.length_map, hPlen]
  have hFrow : ∀ t, t < st.matrix.length →
      (((performPivot (st.matrix ++ [st.z]) r c).map
        (fun row => row.eraseIdx c)).getD t []) =
        ((performPivot (st.matrix ++ [st.z]) r c).getD t []).eraseIdx c := by
    intro t ht
    exact getD_map _ _ _ _ [] (by rw [hPlen]; omega)
  have hwf : WfState (artificial.applyPivotToState st (r, c)) :=
    applyPivot_wfState st r c hcc ⟨hzlen, by
      rw [headD_eq_getD_zero]
      by_cases hm0 : st.matrix.length = 0
      · rw [List.getD_eq_default _ _ (by omega)]
        simp
      · rw [hwidth 0 (by omega)]⟩
  refine ⟨?_, ?_, ?_, hwf.1, ?_⟩
  · show (st.colsVariables.eraseIdx c).Nodup
    exact hnodup.sublist (List.eraseIdx_sublist _ _)
  · show (st.rowVariables.set r _).length = (((performPivot (st.matrix ++ [st.z]) r c).map
      (fun row => row.eraseIdx c)).dropLast).length
    rw [List.length_set, List.length_dropLast, hFlen, hrowlen]
    omega
  · show ∀ t, t < (((performPivot (st.matrix ++ [st.z]) r c).map
      (fun row => row.eraseIdx c)).dropLast).length → _
    intro t ht
    rw [List.length_dropLast, hFlen] at ht
    show ((((performPivot (st.matrix ++ [st.z]) r c).map
      (fun row => row.eraseIdx c)).dropLast).getD t []).length =
      (st.colsVariables.eraseIdx c).length + 1
    rw [dropLast_getD _ _ _ (by rw [hFlen]; omega), hFrow t (by omega),
      List.length_eraseIdx]
    rw [hProw t (by omega), getD_append_left _ _ _ _ (by omega), hwidth t (by omega),
      length_eraseIdx_lt _ _ hcc]
    have : c < st.colsVariables.length + 1 := by omega
    split <;> omega
  · intro i j' hi hj' heq
    have hi2 : i < (st.rowVariables.set r (st.colsVariables.getD c 0)).length := hi
    rw [List.length_set] at hi2
    have hj2 : j' < (st.colsVariables.eraseIdx c).length := hj'
    rw [length_eraseIdx_lt _ _ hcc] at hj2
    have heq2 : (st.colsVariables.eraseIdx c).getD j' 0 =
        (st.rowVariables.set r (st.colsVariables.getD c 0)).getD i 0 := heq
    have hcols2 : (st.colsVariables.eraseIdx c).getD j' 0 =
        st.colsVariables.getD (if j' < c then j' else j' + 1) 0 := by
      rw [getD_eraseIdx]
      by_cases hjc : j' < c
      · rw [if_pos hjc, if_pos hjc]
      · rw [if_neg hjc, if_neg hjc]
    have hjlt : (if j' < c then j' else j' + 1) < st.colsVariables.length := by
      split <;> omega
    have hjnec : (if j' < c then j' else j' + 1) ≠ c := by
      split <;> omega
    rw [hcols2] at heq2
    show ColIsUnit (((performPivot (st.matrix ++ [st.z]) r c).map
      (fun row => row.eraseIdx c)).dropLast) i j'
    by_cases hir : i = r
    · subst hir
      rw [getD_set_self _ _ _ _ (by omega)] at heq2
      exact absurd heq2 (nodup_getD_ne st.colsVariables hnodup _ c hjlt hcc hjnec)
    · rw [getD_set_ne _ _ _ _ _ hir] at heq2
      have hold : ColIsUnit st.matrix i (if j' < c then j' else j' + 1) :=
        hunits i _ (by rw [hrowlen]; omega) hjlt heq2
      intro t ht
      rw [List.length_dropLast, hFlen] at ht
      have hentry : getEntry (((performPivot (st.matrix ++ [st.z]) r c).map
          (fun row => row.eraseIdx c)).dropLast) t j' =
          getEntry (performPivot (st.matrix ++ [st.z]) r c) t
            (if j' < c then j' else j' + 1) := by
        unfold getEntry
        rw [dropLast_getD _ _ _ (by rw [hFlen]; omega), hFrow t (by omega),
          getD_eraseIdx]
        by_cases hjc : j' < c
        · rw [if_pos hjc, if_pos hjc]
        · rw [if_neg hjc, if_neg hjc]
      rw [hentry]
      exact performPivot_preserves_unit_col st.matrix st.z r c
        (if j' < c then j' else j' + 1) i hr hpT hir hold
        (fun t2 ht2 => by rw [hwidth t2 ht2]; omega) t (by omega)

end Simplex

namespace Simplex

lemma canonTab_z_any (m : List (List ℚ)) (z z2 : List ℚ) (rows cols : List ℕ)
    (h : CanonTab m z rows cols)
    (hz : z2 = z ∨ z2.length = (m.headD []).length) :
    CanonTab m z2 rows cols := by
  obtain ⟨h1, h2, h3, h4, h5⟩ := h
  refine ⟨h1, h2, h3, ?_, h5⟩
  rcases hz with hz | hz
  · rw [hz]
    exact h4
  · rw [hz, headD_eq_getD_zero]
    by_cases hm0 : m.length = 0
    · rw [List.getD_eq_default _ _ (by omega)]
      simp
    · rw [h3 0 (by omega)]

lemma applyPivot_canon_method (st : SolverState) (r c : ℕ) (method : Method)
    (hmem : (r, c) ∈ (findPotentialPivotsA st.matrix st.z).1)
    (hcanon : CanonState st) :
    CanonState (solver.applyPivotToState st (r, c) method) := by
  cases method with
  | simplex => exact applyPivot_canon_simplex st r c hmem hcanon
  | artificial =>
    rw [applyPivotToState_artificial_eq]
    exact applyPivot_canon_artificial st r c hmem hcanon

/-- The initial artificial-basis state is canonical: distinct original-variable
column labels, artificial row labels disjoint from them, uniform row width and
a fitting z-row. -/
lemma createInitialState_canon (pb : ProblemData) :
    CanonState (artificial.createInitialState pb) := by
  have hmlen : (artificial.createInitialState pb).matrix.length = pb.numConstraints := by
    show (normalizeRhs (buildMatrix pb)).length = _
    rw [normalizeRhs_length, length_buildMatrix]
  have hclen : (artificial.createInitialState pb).colsVariables.length = pb.numVariables := by
    show ((List.range pb.numVariables).map _).length = _
    simp
  refine ⟨?_, ?_, ?_, (createInitialState_wfState pb).1, ?_⟩
  · show ((List.range pb.numVariables).map (fun i => i + 1)).Nodup
    exact List.Nodup.map (fun a b h => by omega) (List.nodup_range _)
  · show ((List.range pb.numConstraints).map _).length = _
    rw [hmlen]
    simp
  · intro t ht
    rw [hmlen] at ht
    show ((normalizeRhs (buildMatrix pb)).getD t []).length = _
    rw [normalizeRhs_row_length, buildMatrix_row_length pb t ht, hclen]
  · intro i j hi hj heq
    rw [hclen] at hj
    have hilen : i < pb.numConstraints := by
      have : (artificial.createInitialState pb).rowVariables.length = pb.numConstraints := by
        show ((List.range pb.numConstraints).map _).length = _
        simp
      omega
    have hc : (artificial.createInitialState pb).colsVariables.getD j 0 = j + 1 := by
      show (((List.range pb.numVariables).map (fun i => i + 1)).getD j 0) = _
      rw [getD_map _ _ _ _ 0 (by simpa using hj), getD_range _ _ hj]
    have hrv : (artificial.createInitialState pb).rowVariables.getD i 0 =
        i + pb.numVariables + 1 := by
      show (((List.range pb.numConstraints).map (fun k => k + pb.numVariables + 1)).getD i 0) = _
      rw [getD_map _ _ _ _ 0 (by simpa using hilen), getD_range _ _ hilen]
    rw [hc, hrv] at heq
    omega

end Simplex

namespace Simplex

/-- Every snapshot of a history produced by the artificial engine is
canonical. -/
lemma produced_canonA (pb : ProblemData) (H : List Step) (hH : ProducedA pb H) :
    ∀ s ∈ H, CanonStep s := by
  induction hH with
  | nil =>
    intro s hs
    exact absurd hs (List.not_mem_nil s)
  | step G idx hG ih =>
    cases hGlast : G.getLast? with
    | none =>
      have hGnil : G = [] := List.getLast?_eq_none_iff.mp hGlast
      subst hGnil
      intro s hs
      obtain ⟨tail, heq, -, -, hall, -⟩ :=
        appendNextSnapshotA_shape pb [] (artificial.createInitialState pb)
      rw [List.nil_append] at heq
      have hH0 : artificial.solveArtificialStep pb [] idx = tail := heq
      rw [hH0] at hs
      obtain ⟨hmx, hcv, hrv, -, hpp, -, hzc⟩ := hall s hs
      refine ⟨hpp, ?_⟩
      rw [hmx, hcv, hrv]
      exact canonTab_z_any _ _ _ _ _ (createInitialState_canon pb) hzc
    | some g =>
      have hgmem : g ∈ G := mem_of_getLast? hGlast
      by_cases hguard : g.potentialPivots.length = 0 ∨
          g.solutionType ≠ SolutionType.notSolved
      · have hnoop : artificial.solveArtificialStep pb G idx = G := by
          rcases hguard with h | h
          · exact solveArtificialStep_noop pb G g idx hGlast
              (Or.inl (List.length_eq_zero.mp h))
          · exact solveArtificialStep_noop pb G g idx hGlast (Or.inr (Or.inl h))
        rw [hnoop]
        exact ih
      · push_neg at hguard
        obtain ⟨hplen, hgns⟩ := hguard
        cases hpv : g.potentialPivots.get? (idx.getD 0) with
        | none =>
          have hnoop : artificial.solveArtificialStep pb G idx = G :=
            solveArtificialStep_noop pb G g idx hGlast
              (Or.inr (Or.inr (List.get?_eq_none.mp hpv)))
          rw [hnoop]
          exact ih
        | some pv =>
          obtain ⟨r, c⟩ := pv
          have hcg : CanonStep g := ih g hgmem
          have hmem : (r, c) ∈ (findPotentialPivotsA g.matrix g.z).1 := by
            rw [← hcg.1]
            exact List.get?_mem hpv
          have hstate : CanonState (artificial.applyPivotToState
              (artificial.restoreState pb g) (r, c)) :=
            applyPivot_canon_artificial _ r c hmem hcg.2
          have hdecomp := solveArtificialStep_advances pb G g idx (r, c) hGlast hgns hpv
          obtain ⟨tail, htaileq, -, -, hall, -⟩ :=
            appendNextSnapshotA_shape pb []
              (artificial.applyPivotToState (artificial.restoreState pb g) (r, c))
          rw [List.nil_append] at htaileq
          rw [htaileq] at hdecomp
          intro s hs
          rw [hdecomp] at hs
          rcases List.mem_append.mp hs with hsA | hsT
          · rcases List.mem_or_eq_of_mem_set hsA with hsG | hseq
            · exact ih s hsG
            · rw [hseq]
              exact hcg
          · obtain ⟨hmx, hcv, hrv, -, hpp, -, hzc⟩ := hall s hsT
            refine ⟨hpp, ?_⟩
            rw [hmx, hcv, hrv]
            exact canonTab_z_any _ _ _ _ _ hstate hzc

/-- Every snapshot of a `solveStepMode` history grown from a canonical initial
state is canonical, with either method. -/
lemma produced_canonS (pb : ProblemData) (st0 : SolverState) (method : Method)
    (hst0 : CanonState st0) (H : List Step) (hH : ProducedS pb st0 method H) :
    ∀ s ∈ H, CanonStep s := by
  induction hH with
  | nil =>
    intro s hs
    exact absurd hs (List.not_mem_nil s)
  | step G idx hG ih =>
    cases hGlast : G.getLast? with
    | none =>
      have hGnil : G = [] := List.getLast?_eq_none_iff.mp hGlast
      subst hGnil
      intro s hs
      obtain ⟨tail, heq, -, -, hall, -⟩ := appendNextSnapshotS_shape pb [] st0
      rw [List.nil_append] at heq
      have hH0 : solver.solveStepMode pb [] st0 method idx = tail := heq
      rw [hH0] at hs
      obtain ⟨hmx, hcv, hrv, -, hpp, -, hzc⟩ := hall s hs
      refine ⟨hpp, ?_⟩
      rw [hmx, hcv, hrv]
      exact canonTab_z_any _ _ _ _ _ hst0 hzc
    | some g =>
      have hgmem : g ∈ G := mem_of_getLast? hGlast
      by_cases hguard : g.potentialPivots.length = 0 ∨
          g.solutionType ≠ SolutionType.notSolved
      · have hnoop : solver.solveStepMode pb G st0 method idx = G := by
          rcases hguard with h | h
          · exact solveStepMode_noop pb st0 method G g idx hGlast
              (Or.inl (List.length_eq_zero.mp h))
          · exact solveStepMode_noop pb st0 method G g idx hGlast (Or.inr (Or.inl h))
        rw [hnoop]
        exact ih
      · push_neg at hguard
        obtain ⟨hplen, hgns⟩ := hguard
        cases hpv : g.potentialPivots.get? (idx.getD 0) with
        | none =>
          have hnoop : solver.solveStepMode pb G st0 method idx = G :=
            solveStepMode_noop pb st0 method G g idx hGlast
              (Or.inr (Or.inr (List.get?_eq_none.mp hpv)))
          rw [hnoop]
          exact ih
        | some pv =>
          obtain ⟨r, c⟩ := pv
          have hcg : CanonStep g := ih g hgmem
          have hmem : (r, c) ∈ (findPotentialPivotsA g.matrix g.z).1 := by
            rw [← hcg.1]
            exact List.get?_mem hpv
          have hstate : CanonState (solver.applyPivotToState
              (solver.restoreState pb g) (r, c) method) :=
            applyPivot_canon_method _ r c method hmem hcg.2
          have hdecomp := solveStepMode_advances pb st0 method G g idx (r, c)
            hGlast hgns hpv
          obtain ⟨tail, htaileq, -, -, hall, -⟩ :=
            appendNextSnapshotS_shape pb []
              (solver.applyPivotToState (solver.restoreState pb g) (r, c) method)
          rw [List.nil_append] at htaileq
          rw [htaileq] at hdecomp
          intro s hs
          rw [hdecomp] at hs
          rcases List.mem_append.mp hs with hsA | hsT
          · rcases List.mem_or_eq_of_mem_set hsA with hsG | hseq
            · exact ih s hsG
            · rw [hseq]
              exact hcg
          · obtain ⟨hmx, hcv, hrv, -, hpp, -, hzc⟩ := hall s hsT
            refine ⟨hpp, ?_⟩
            rw [hmx, hcv, hrv]
            exact canonTab_z_any _ _ _ _ _ hstate hzc

end Simplex

namespace Simplex

/-- A produced simplex-method history on `probMaxX1` whose later snapshots
store the entered variable x1's column as an identity column. -/
def historyC3 : List Step :=
  solver.solveStepMode probMaxX1
    (solver.solveStepMode probMaxX1 [] (artificial.createInitialState probMaxX1)
      Method.simplex (some 0))
    (artificial.createInitialState probMaxX1) Method.simplex (some 0)

/-- C3.  Canonical-form invariant, in exact arithmetic (the source's floats
carry the EPS allowance): (i) `performPivot` makes the pivot column 1 in the
pivot row and 0 in every other row, and preserves every existing identity
column whose unit sits outside the pivot row; and (ii) for every Step in any
history the engine produces — by the artificial engine, or by `solveStepMode`
from any canonical initial state with either method — every stored column
that carries a basic variable's label is exactly that row's identity column:
reconstructing a basic variable's full column from any snapshot yields 1 in
its own row and 0 elsewhere (for basic variables whose column was deleted or
never stored, the reconstruction is the identity column by construction). -/
theorem canonical_form_invariant :
    (∀ (matrix : List (List ℚ)) (pivotRow pivotCol : ℕ),
      getEntry matrix pivotRow pivotCol ≠ 0 →
      getEntry (performPivot matrix pivotRow pivotCol) pivotRow pivotCol = 1 ∧
      (∀ i, i < matrix.length → i ≠ pivotRow →
        getEntry (performPivot matrix pivotRow pivotCol) i pivotCol = 0) ∧
      (∀ j k, k < matrix.length → k ≠ pivotRow → j ≠ pivotCol →
        (∀ i, i < matrix.length → getEntry matrix i j = if i = k then 1 else 0) →
        ∀ i, i < matrix.length → j < (matrix.getD i []).length →
          getEntry (performPivot matrix pivotRow pivotCol) i j =
            if i = k then 1 else 0)) ∧
    (∀ (pb : ProblemData) (H : List Step), ProducedA pb H → ∀ s ∈ H,
      ∀ i j, i < s.rowVariables.length → j < s.colsVariables.length →
        s.colsVariables.getD j 0 = s.rowVariables.getD i 0 →
        ∀ r, r < s.matrix.length →
          getEntry s.matrix r j = if r = i then 1 else 0) ∧
    (∀ (pb : ProblemData) (st0 : SolverState) (method : Method) (H : List Step),
      CanonState st0 → ProducedS pb st0 method H → ∀ s ∈ H,
      ∀ i j, i < s.rowVariables.length → j < s.colsVariables.length →
        s.colsVariables.getD j 0 = s.rowVariables.getD i 0 →
        ∀ r, r < s.matrix.length →
          getEntry s.matrix r j = if r = i then 1 else 0) :=
  ⟨performPivot_pivot_column,
   fun pb H hH s hs i j hi hj heq =>
     (produced_canonA pb H hH s hs).2.2.2.2.2 i j hi hj heq,
   fun pb st0 method H hst0 hH s hs i j hi hj heq =>
     (produced_canonS pb st0 method hst0 H hH s hs).2.2.2.2.2 i j hi hj heq⟩

/-- Witness for C3: the single-pivot facts at the tableau [[2, 1], [4, 3]]
with pivot (0, 0), and the history invariant at the second snapshot of
`historyC3`, where the stored column of the entered basic variable x1 reads 1
in its own row. -/
theorem canonical_form_invariant_witness :
    getEntry (performPivot [[2, 1], [4, 3]] 0 0) 0 0 = 1 ∧
    getEntry (performPivot [[2, 1], [4, 3]] 0 0) 1 0 = 0 ∧
    getEntry (historyC3.getD 1 defStep).matrix 0 0 = 1 :=
  ⟨(canonical_form_invariant.1 [[2, 1], [4, 3]] 0 0 (by decide)).1,
   (canonical_form_invariant.1 [[2, 1], [4, 3]] 0 0 (by decide)).2.1 1 (by decide)
     (by decide),
   by
    have h := canonical_form_invariant.2.2 probMaxX1
      (artificial.createInitialState probMaxX1) Method.simplex historyC3
      (createInitialState_canon probMaxX1)
      (ProducedS.step _ (some 0) (ProducedS.step [] (some 0) ProducedS.nil))
      (historyC3.getD 1 defStep) (by decide) 0 0 (by decide) (by decide)
      (by decide) 0 (by decide)
    simpa using h⟩

end Simplex
